import Mathlib

/-!
Verification of the dataset partition engine described in the repository
specification.  The repository source is a tutorial notebook that calls
pre-built splitter strategies of an external library; the specification
defines the implied algorithmic core (a partition engine with pluggable
strategies).  Every definition below is modelled from the specification
text, since the strategy implementations themselves are not part of the
supplied source tree.
-/

/-- Modelled from the spec: one dataset record (section 3, Item).  The
similarity and grouping computations are injected, so the feature vector
is kept abstract as a bit list and the numeric attribute as an integer. -/
structure Item where
  id : Nat
  labels : List Int
  group_key : Option Nat
  feature_vector : List Bool
  numeric_attribute : Int
deriving DecidableEq

/-- Modelled from the spec: a Dataset is an ordered sequence of Items. -/
abbrev Dataset := List Item

/-- Modelled from the spec: a Split Assignment, named buckets plus the
implicit discard bucket, each holding dataset indices (section 3). -/
structure SplitAssignment where
  buckets : List (List Nat)
  discard : List Nat
deriving DecidableEq

/-- Modelled from the spec: the error taxonomy of section 7. -/
inductive SplitError where
  | invalidConfiguration : SplitError
  | insufficientData : SplitError
  | unsupportedOperation : SplitError
deriving DecidableEq

/-- Modelled from the spec: the strategy selector (section 2), with the
similarity and distance providers injected as function values. -/
inductive Strategy where
  | random : Strategy
  | stratified : Nat → Strategy
  | scaffold : Strategy
  | butina : (Item → Item → ℚ) → ℚ → Strategy
  | maxmin : (Item → Item → ℚ) → Strategy
  | numericOrdered : Strategy
  | specified : List (List Nat) → Strategy

/-- Insertion of an element into a list governed by a boolean order. -/
def insertBy (le : α → α → Bool) (a : α) : List α → List α
  | [] => [a]
  | b :: l => if le a b then a :: b :: l else b :: insertBy le a l

/-- Stable insertion sort; used for every deterministic ordering of the
engine so that all computations reduce structurally. -/
def sortBy (le : α → α → Bool) : List α → List α
  | [] => []
  | a :: l => insertBy le a (sortBy le l)

/-- Modelled from the spec: a seed-controlled pseudorandom key stream (a
linear congruential step, section 4.2); any injected deterministic stream
satisfies the spec, which leaves the generator unspecified. -/
def lcg (x : Nat) : Nat := (x * 1103515245 + 12345) % 2147483648

/-- Pseudorandom sort key of index i under a seed. -/
def prKey (seed i : Nat) : Nat := lcg (lcg (seed + i) + i)

/-- Modelled from the spec: the seed-controlled pseudorandom permutation
used by the Random Splitter (section 4.2). -/
def shuffleIdx (seed : Nat) (l : List Nat) : List Nat :=
  sortBy (fun i j => decide (prKey seed i ≤ prKey seed j)) l

/-- The index set of a dataset. -/
def datasetIdx (d : Dataset) : List Nat := List.range d.length

/-- Fractional part of a rational number. -/
def fracRem (q : ℚ) : ℚ := q - ⌊q⌋

/-- The exact (unrounded) quota of bucket i: its fraction times n. -/
def lrQuota (fr : List ℚ) (n : Nat) (i : Nat) : ℚ := fr.getD i 0 * n

/-- The floors of the quotas. -/
def lrBase (fr : List ℚ) (n : Nat) : List Nat :=
  fr.map (fun f => (⌊f * (n : ℚ)⌋).toNat)

/-- The bucket indices that receive one leftover unit: those with the
largest fractional remainders, ties broken by first occurrence. -/
def lrExtras (fr : List ℚ) (n : Nat) : List Nat :=
  (sortBy (fun i j => decide (fracRem (lrQuota fr n j) ≤ fracRem (lrQuota fr n i)))
    (List.range fr.length)).take (n - (lrBase fr n).sum)

/-- Modelled from the spec: largest-remainder rounding of fractions times
the dataset size (sections 4.2 and 9): every bucket receives the floor of
its quota, and the leftover units go to the buckets with the largest
fractional remainders, ties broken by first occurrence. -/
def lrSizes (fr : List ℚ) (n : Nat) : List Nat :=
  (List.range fr.length).map
    (fun i => (lrBase fr n).getD i 0 + if i ∈ lrExtras fr n then 1 else 0)

/-- Modelled from the spec: the remainder of the fractions is an implicit
discard bucket (section 4.1), so sizing always extends the fractions with
the discard fraction, making them sum to one exactly. -/
def extFractions (fr : List ℚ) : List ℚ := fr ++ [1 - fr.sum]

/-- The named bucket sizes for a dataset of size n. -/
def bucketSizes (fr : List ℚ) (n : Nat) : List Nat :=
  (lrSizes (extFractions fr) n).dropLast

/-- Cuts a list into contiguous runs of the given sizes; the leftover is
returned separately. -/
def sliceBySizes : List Nat → List α → List (List α) × List α
  | [], l => ([], l)
  | s :: ss, l =>
    let p := sliceBySizes ss (l.drop s)
    (l.take s :: p.1, p.2)

/-- Modelled from the spec: cutting an ordered index list into contiguous
buckets sized by the fractions; the leftover run is the discard bucket. -/
def cutByFractions (fr : List ℚ) (idxs : List Nat) : SplitAssignment :=
  let p := sliceBySizes (bucketSizes fr idxs.length) idxs
  ⟨p.1, p.2⟩

/-- Modelled from the spec: the Random Splitter (section 4.2) shuffles the
index set with the seed-controlled permutation and cuts it. -/
def randomSplit (d : Dataset) (fr : List ℚ) (seed : Nat) : SplitAssignment :=
  cutByFractions fr (shuffleIdx seed (datasetIdx d))

/-- The item stored at an index, with a default for out-of-range access. -/
def itemAt (d : Dataset) (i : Nat) : Item := d.getD i ⟨0, [], none, [], 0⟩

/-- Modelled from the spec: the ascending order by numeric attribute used
by the Numeric-Attribute-Ordered Splitter (section 4.7). -/
def numericOrder (d : Dataset) : List Nat :=
  sortBy (fun i j => decide ((itemAt d i).numeric_attribute ≤ (itemAt d j).numeric_attribute))
    (datasetIdx d)

/-- Modelled from the spec: the Numeric-Attribute-Ordered Splitter
(section 4.7): sort ascending by the numeric attribute, then cut by
fractions exactly as the Random Splitter does, with no shuffling. -/
def numericSplit (d : Dataset) (fr : List ℚ) : SplitAssignment :=
  cutByFractions fr (numericOrder d)

/-- Modelled from the spec: positive-class test for a task, label above
the default threshold zero (section 4.3). -/
def isPos (d : Dataset) (t : Nat) (i : Nat) : Bool :=
  decide (0 < (itemAt d i).labels.getD t 0)

/-- The indices of the positive class for a task. -/
def posIdxs (d : Dataset) (t : Nat) : List Nat :=
  (datasetIdx d).filter (isPos d t)

/-- The indices of the rest (the negative class) for a task. -/
def negIdxs (d : Dataset) (t : Nat) : List Nat :=
  (datasetIdx d).filter (fun i => !(isPos d t i))

/-- The number of buckets with a non-zero requested fraction. -/
def nonzeroCount (fr : List ℚ) : Nat :=
  (fr.filter (fun f => decide (0 < f))).length

/-- Modelled from the spec: merging the per-class buckets of the
Stratified Splitter, bucket by bucket (section 4.3). -/
def mergeAssign (a b : SplitAssignment) : SplitAssignment :=
  ⟨List.zipWith (fun x y => x ++ y) a.buckets b.buckets, a.discard ++ b.discard⟩

/-- Modelled from the spec: the Split Assignment built by the Stratified
Splitter when both classes are large enough: each class is split
independently with the Random Splitter algorithm and the per-class
buckets are merged (section 4.3). -/
def stratifiedAssign (d : Dataset) (t : Nat) (fr : List ℚ) (seed : Nat) : SplitAssignment :=
  mergeAssign (cutByFractions fr (shuffleIdx seed (posIdxs d t)))
    (cutByFractions fr (shuffleIdx (seed + 1) (negIdxs d t)))

/-- Modelled from the spec: the Stratified Splitter (section 4.3),
signalling InsufficientData when a class has fewer items than the number
of non-zero-fraction buckets. -/
def stratifiedSplit (d : Dataset) (t : Nat) (fr : List ℚ) (seed : Nat) :
    Except SplitError SplitAssignment :=
  if (posIdxs d t).length < nonzeroCount fr || (negIdxs d t).length < nonzeroCount fr then
    .error .insufficientData
  else
    .ok (stratifiedAssign d t fr seed)

/-- The group key of the item at an index. -/
def keyOf (d : Dataset) (i : Nat) : Option Nat := (itemAt d i).group_key

/-- Splits an index list into maximal chunks: the head starts a chunk that
absorbs every later element related to it, and the rest is chunked
recursively.  Used for grouping by key and for cluster absorption. -/
def chunkBy (same : Nat → Nat → Bool) : List Nat → List (List Nat)
  | [] => []
  | i :: rest =>
    (i :: rest.filter (fun j => same i j)) :: chunkBy same (rest.filter (fun j => !(same i j)))
termination_by l => l.length
decreasing_by simpa using Nat.lt_succ_of_le (List.length_filter_le _ _)

/-- Sorts a list of groups by descending size; the underlying insertion
sort is stable, so ties keep first-occurrence order. -/
def sortGroupsBySize (gs : List (List Nat)) : List (List Nat) :=
  sortBy (fun g h => decide (h.length ≤ g.length)) gs

/-- Modelled from the spec: the groups of the Group-based Splitter,
ordered by descending size with first-occurrence tie-break (section 4.4). -/
def scaffoldGroups (d : Dataset) : List (List Nat) :=
  sortGroupsBySize (chunkBy (fun i j => decide (keyOf d j = keyOf d i)) (datasetIdx d))

/-- Places a whole group into the first bucket whose running total is
still below its target; returns none when every bucket is full. -/
def placeGroup (g : List Nat) : List (List Nat) → List Nat → Option (List (List Nat))
  | _, [] => none
  | [], _ => none
  | b :: bs, t :: ts =>
    if b.length < t then some ((b ++ g) :: bs)
    else Option.map (fun r => b :: r) (placeGroup g bs ts)

/-- One greedy step: a group goes to the first unfilled bucket, or to the
discard bucket when all buckets are full. -/
def greedyStep (targets : List Nat) (a : SplitAssignment) (g : List Nat) : SplitAssignment :=
  match placeGroup g a.buckets targets with
  | some bs => ⟨bs, a.discard⟩
  | none => ⟨a.buckets, a.discard ++ g⟩

/-- Modelled from the spec: the greedy whole-group bucket fill of the
Group-based Splitter (section 4.4). -/
def greedyFill (targets : List Nat) (gs : List (List Nat)) : SplitAssignment :=
  gs.foldl (greedyStep targets) ⟨targets.map (fun _ => ([] : List Nat)), []⟩

/-- Modelled from the spec: the Group-based (scaffold-style) Splitter
(section 4.4). -/
def scaffoldSplit (d : Dataset) (fr : List ℚ) : SplitAssignment :=
  greedyFill (bucketSizes fr d.length) (scaffoldGroups d)

/-- The injected pairwise similarity, read off the items at two indices. -/
def simIdx (d : Dataset) (sim : Item → Item → ℚ) (i j : Nat) : ℚ :=
  sim (itemAt d i) (itemAt d j)

/-- Modelled from the spec: the count, for one item, of other items within
threshold similarity (section 4.5, step 1). -/
def nbrCount (d : Dataset) (sim : Item → Item → ℚ) (thr : ℚ) (i : Nat) : Nat :=
  ((datasetIdx d).filter (fun j => !(decide (j = i)) && decide (thr ≤ simIdx d sim i j))).length

/-- Modelled from the spec: the processing order of the
Similarity-Clustering Splitter, descending neighbour count with
first-occurrence tie-break (section 4.5, step 2). -/
def butinaOrder (d : Dataset) (sim : Item → Item → ℚ) (thr : ℚ) : List Nat :=
  sortBy (fun i j => decide (nbrCount d sim thr j ≤ nbrCount d sim thr i)) (datasetIdx d)

/-- Modelled from the spec: the clusters of the Similarity-Clustering
Splitter: each unassigned item, in processing order, becomes a cluster
center absorbing all unassigned items within threshold (section 4.5,
steps 3 and 4). -/
def butinaClusters (d : Dataset) (sim : Item → Item → ℚ) (thr : ℚ) : List (List Nat) :=
  chunkBy (fun c x => decide (thr ≤ simIdx d sim c x)) (butinaOrder d sim thr)

/-- Modelled from the spec: the Similarity-Clustering (Butina-style)
Splitter: clusters are treated exactly as groups of the Group-based
Splitter (section 4.5). -/
def butinaSplit (d : Dataset) (sim : Item → Item → ℚ) (thr : ℚ) (fr : List ℚ) :
    SplitAssignment :=
  greedyFill (bucketSizes fr d.length) (sortGroupsBySize (butinaClusters d sim thr))

/-- The injected pairwise distance, read off the items at two indices. -/
def distIdx (d : Dataset) (dist : Item → Item → ℚ) (i j : Nat) : ℚ :=
  dist (itemAt d i) (itemAt d j)

/-- The minimum distance from an item to an already-picked set, as a value
in WithTop so that the empty picked set has distance top. -/
def minDistTo (f : Nat → Nat → ℚ) (x : Nat) (picked : List Nat) : WithTop ℚ :=
  (picked.map (fun p => ((f x p : ℚ) : WithTop ℚ))).foldr min ⊤

/-- The farthest remaining item: the one maximising the minimum distance
to the picked set (first such item on ties). -/
def pickBest (f : Nat → Nat → ℚ) (picked remaining : List Nat) : Option Nat :=
  remaining.argmax (fun x => minDistTo f x picked)

/-- Modelled from the spec: the farthest-point sampling loop of the
Extremes-first Splitter (section 4.6): k times, move the remaining item
with maximum minimum-distance to the picked set into the picked list. -/
def maxminGo (f : Nat → Nat → ℚ) : Nat → List Nat → List Nat → List Nat × List Nat
  | 0, picked, remaining => (picked, remaining)
  | k + 1, picked, remaining =>
    match pickBest f picked remaining with
    | none => (picked, remaining)
    | some b => maxminGo f k (picked ++ [b]) (remaining.erase b)

/-- The picked list and the remaining list of the Extremes-first Splitter:
the seed picks the first item, and one fewer than the summed evaluation
bucket sizes are then picked by farthest-point sampling. -/
def maxminPicks (d : Dataset) (dist : Item → Item → ℚ) (fr : List ℚ) (seed : Nat) :
    List Nat × List Nat :=
  let n := d.length
  let k := ((bucketSizes fr n).drop 1).sum
  if k = 0 then ([], datasetIdx d)
  else maxminGo (distIdx d dist) (k - 1) [seed % n] ((datasetIdx d).erase (seed % n))

/-- Modelled from the spec: the Extremes-first (MaxMin-style) Splitter
(section 4.6): evaluation buckets are cut from the picked list and the
remaining items form the training bucket. -/
def maxminSplit (d : Dataset) (dist : Item → Item → ℚ) (fr : List ℚ) (seed : Nat) :
    SplitAssignment :=
  let pr := maxminPicks d dist fr seed
  let c := sliceBySizes ((bucketSizes fr d.length).drop 1) pr.1
  ⟨pr.2 :: c.1, c.2⟩

/-- Modelled from the spec: validation of the Externally-Specified
Splitter (section 4.8): the caller-provided index lists must be pairwise
disjoint without repetition and every index must be within range. -/
def specifiedValid (n : Nat) (lists : List (List Nat)) : Bool :=
  lists.flatten.all (fun i => decide (i < n)) && decide lists.flatten.Nodup

/-- Modelled from the spec: the Externally-Specified Splitter
(section 4.8): the provided assignment is returned unchanged when valid,
with the unmentioned indices as the implicit discard bucket. -/
def specifiedSplit (n : Nat) (lists : List (List Nat)) : Except SplitError SplitAssignment :=
  if specifiedValid n lists then
    .ok ⟨lists, (List.range n).filter (fun i => !(decide (i ∈ lists.flatten)))⟩
  else
    .error .invalidConfiguration

/-- The strategy dispatch of the Partition Engine, after validation. -/
def splitRun (d : Dataset) (st : Strategy) (fr : List ℚ) (seed : Nat) :
    Except SplitError SplitAssignment :=
  match st with
  | .random => .ok (randomSplit d fr seed)
  | .stratified t => stratifiedSplit d t fr seed
  | .scaffold => .ok (scaffoldSplit d fr)
  | .butina sim thr => .ok (butinaSplit d sim thr fr)
  | .maxmin dist => .ok (maxminSplit d dist fr seed)
  | .numericOrdered => .ok (numericSplit d fr)
  | .specified lists => specifiedSplit d.length lists

/-- Modelled from the spec: the tolerance on the fraction sum check
(section 4.1); the model uses exact rational arithmetic, so it is zero. -/
def tolerance : ℚ := 0

/-- Modelled from the spec: the configuration check of the Partition
Engine (section 4.1): fractions non-negative and summing to at most one
plus the tolerance. -/
def validFracs (fr : List ℚ) : Bool :=
  fr.all (fun f => decide (0 ≤ f)) && decide (fr.sum ≤ 1 + tolerance)

/-- Modelled from the spec: the Partition Engine orchestrator
(section 4.1): split(dataset, strategy, fractions, seed), validating the
configuration and dispatching to the selected strategy. -/
def split (d : Dataset) (st : Strategy) (fr : List ℚ) (seed : Nat) :
    Except SplitError SplitAssignment :=
  if d.isEmpty then .error .invalidConfiguration
  else if !(validFracs fr) then .error .invalidConfiguration
  else splitRun d st fr seed

/-- A plain example dataset of n items with a single zero label. -/
def plainItems (n : Nat) : Dataset := (List.range n).map (fun i => ⟨i, [0], none, [], 0⟩)

/-- Example dataset of 12 items carrying four group keys, three items each. -/
def groupedData12 : Dataset := (List.range 12).map (fun i => ⟨i, [], some (i / 3), [], 0⟩)

/-- Example dataset of 100 items with every fifth item positive on task 0. -/
def stratData100 : Dataset :=
  (List.range 100).map (fun i => ⟨i, [if i % 5 = 0 then 1 else 0], none, [], 0⟩)

/-- Pairwise similarity table of the five-item clustering example. -/
def simTab : Nat → Nat → ℚ
  | 0, 1 => 1 / 5
  | 0, 2 => 1 / 5
  | 0, 3 => 1 / 5
  | 0, 4 => 4 / 5
  | 1, 2 => 1 / 5
  | 1, 3 => 1 / 2
  | 1, 4 => 4 / 5
  | 2, 3 => 4 / 5
  | 2, 4 => 1 / 5
  | 3, 4 => 1 / 5
  | _, _ => 1

/-- A symmetric injected similarity built from the example table. -/
def simEx : Item → Item → ℚ :=
  fun a b => if a.id ≤ b.id then simTab a.id b.id else simTab b.id a.id

/-- A squared-difference distance on item identifiers, used as the
injected distance of the Extremes-first examples. -/
def sqDist : Item → Item → ℚ := fun a b => ((a.id : ℚ) - (b.id : ℚ)) ^ 2

/-- Example dataset of 3 items with descending numeric attribute. -/
def weightData3 : Dataset := (List.range 3).map (fun i => ⟨i, [], none, [], (3 - i : Int)⟩)


/-- The largest group size among a list of groups. -/
def maxGroupSize (gs : List (List Nat)) : Nat := (gs.map List.length).foldr max 0

/-- The number of positive-class items (for a task) among a bucket. -/
def posCountIn (d : Dataset) (t : Nat) (l : List Nat) : Nat :=
  (l.filter (isPos d t)).length

/-- Decidable equality of split outcomes, used to evaluate examples. -/
instance : DecidableEq (Except SplitError SplitAssignment) :=
  fun x y =>
    match x, y with
    | .ok a, .ok b => if h : a = b then isTrue (by rw [h]) else isFalse (by simp [h])
    | .error e, .error f => if h : e = f then isTrue (by rw [h]) else isFalse (by simp [h])
    | .ok a, .error e => isFalse (by simp)
    | .error e, .ok a => isFalse (by simp)

theorem insertBy_perm (le : α → α → Bool) (a : α) (l : List α) :
    (insertBy le a l).Perm (a :: l) := by
  induction l with
  | nil => simp [insertBy]
  | cons b t ih =>
    simp only [insertBy]
    by_cases h : le a b = true
    · simp [h]
    · simp only [h, if_false]
      exact ((ih.cons b).trans (List.Perm.swap a b t))

theorem sortBy_perm (le : α → α → Bool) (l : List α) :
    (sortBy le l).Perm l := by
  induction l with
  | nil => simp [sortBy]
  | cons a t ih =>
    exact (insertBy_perm le a (sortBy le t)).trans (ih.cons a)

theorem sortBy_length (le : α → α → Bool) (l : List α) :
    (sortBy le l).length = l.length :=
  (sortBy_perm le l).length_eq

theorem sliceBySizes_flatten (szs : List Nat) (l : List α) :
    ((sliceBySizes szs l).1.flatten ++ (sliceBySizes szs l).2) = l := by
  induction szs generalizing l with
  | nil => simp [sliceBySizes]
  | cons s ss ih =>
    simp only [sliceBySizes, List.flatten_cons, List.append_assoc]
    rw [ih (l.drop s), List.take_append_drop]

theorem sliceBySizes_numBuckets (szs : List Nat) (l : List α) :
    (sliceBySizes szs l).1.length = szs.length := by
  induction szs generalizing l with
  | nil => simp [sliceBySizes]
  | cons s ss ih => simp [sliceBySizes, ih]

theorem cutByFractions_flatten (fr : List ℚ) (idxs : List Nat) :
    ((cutByFractions fr idxs).buckets.flatten ++ (cutByFractions fr idxs).discard) = idxs :=
  sliceBySizes_flatten _ idxs

theorem map_getD_range (l : List α) (d : α) :
    (List.range l.length).map (fun i => l.getD i d) = l := by
  induction l with
  | nil => simp
  | cons a t ih =>
    rw [List.length_cons, List.range_succ_eq_map, List.map_cons, List.map_map]
    have h : ((fun i => (a :: t).getD i d) ∘ Nat.succ) = (fun i => t.getD i d) := by
      funext i
      simp [List.getD_cons_succ]
    simp only [h, ih, List.getD_cons_zero]

theorem sum_map_ite_mem (l : List Nat) (s : List Nat) :
    (l.map (fun i => if i ∈ s then (1 : Nat) else 0)).sum
      = (l.filter (fun i => decide (i ∈ s))).length := by
  induction l with
  | nil => simp
  | cons a t ih =>
    by_cases h : a ∈ s <;> simp [h, ih, List.filter_cons] <;> omega

theorem lrBase_length (fr : List ℚ) (n : Nat) : (lrBase fr n).length = fr.length := by
  simp [lrBase]

theorem lrSizes_length (fr : List ℚ) (n : Nat) : (lrSizes fr n).length = fr.length := by
  simp [lrSizes]

theorem floor_toNat_cast_of_nonneg {q : ℚ} (h : 0 ≤ q) :
    (((⌊q⌋).toNat : ℕ) : ℚ) = (⌊q⌋ : ℚ) := by
  have h2 : ((⌊q⌋).toNat : ℤ) = ⌊q⌋ := Int.toNat_of_nonneg (Int.floor_nonneg.mpr h)
  exact_mod_cast h2

theorem lrBase_sum_le (fr : List ℚ) (n : Nat) (hnn : ∀ f ∈ fr, 0 ≤ f) (hs : fr.sum = 1) :
    (lrBase fr n).sum ≤ n := by
  have hcast : ((lrBase fr n).sum : ℚ) ≤ (n : ℚ) := by
    rw [Nat.cast_list_sum, lrBase, List.map_map]
    have hle : (fr.map ((Nat.cast : ℕ → ℚ) ∘ fun f => (⌊f * (n : ℚ)⌋).toNat)).sum
        ≤ (fr.map (fun f => f * (n : ℚ))).sum := by
      apply List.sum_le_sum
      intro f hf
      have hq : (0 : ℚ) ≤ f * n := by
        have := hnn f hf
        positivity
      calc ((((⌊f * (n : ℚ)⌋).toNat : ℕ)) : ℚ) = (⌊f * (n : ℚ)⌋ : ℚ) :=
            floor_toNat_cast_of_nonneg hq
        _ ≤ f * n := Int.floor_le _
    calc (fr.map ((Nat.cast : ℕ → ℚ) ∘ fun f => (⌊f * (n : ℚ)⌋).toNat)).sum
        ≤ (fr.map (fun f => f * (n : ℚ))).sum := hle
      _ = fr.sum * (n : ℚ) := by
          have := List.sum_map_mul_right fr (fun f => f) (n : ℚ)
          simpa using this
      _ = (n : ℚ) := by rw [hs, one_mul]
  exact_mod_cast hcast

theorem lrBase_sum_lt (fr : List ℚ) (n : Nat) (hnn : ∀ f ∈ fr, 0 ≤ f) (hs : fr.sum = 1) :
    n < (lrBase fr n).sum + fr.length := by
  have hne : fr ≠ [] := by
    intro h
    rw [h] at hs
    simp at hs
  have hcast : (n : ℚ) < ((lrBase fr n).sum : ℚ) + fr.length := by
    have hlt : (fr.map (fun f => f * (n : ℚ))).sum
        < (fr.map (fun f => (((⌊f * (n : ℚ)⌋).toNat : ℕ) : ℚ) + 1)).sum := by
      apply List.sum_lt_sum
      · intro f hf
        have hq : (0 : ℚ) ≤ f * n := by
          have := hnn f hf
          positivity
        rw [floor_toNat_cast_of_nonneg hq]
        exact le_of_lt (Int.lt_floor_add_one _)
      · obtain ⟨f, hf⟩ := List.exists_mem_of_ne_nil fr hne
        refine ⟨f, hf, ?_⟩
        have hq : (0 : ℚ) ≤ f * n := by
          have := hnn f hf
          positivity
        rw [floor_toNat_cast_of_nonneg hq]
        exact Int.lt_floor_add_one _
    have hl : (fr.map (fun f => f * (n : ℚ))).sum = (n : ℚ) := by
      have := List.sum_map_mul_right fr (fun f => f) (n : ℚ)
      simpa [hs] using this
    have hcomp : (Nat.cast ∘ fun f : ℚ => (⌊f * (n : ℚ)⌋).toNat)
        = (fun f : ℚ => (((⌊f * (n : ℚ)⌋).toNat : ℕ) : ℚ)) := rfl
    have hone : (fr.map (fun _ : ℚ => (1 : ℚ))).sum = (fr.length : ℚ) := by
      induction fr with
      | nil => simp
      | cons a t iht => simp [iht]; push_cast; ring
    have hr : (fr.map (fun f => (((⌊f * (n : ℚ)⌋).toNat : ℕ) : ℚ) + 1)).sum
        = ((lrBase fr n).sum : ℚ) + fr.length := by
      rw [List.sum_map_add, Nat.cast_list_sum, lrBase, List.map_map, hcomp, hone]
    rw [hl, hr] at hlt
    exact hlt
  exact_mod_cast hcast

theorem lrExtras_nodup (fr : List ℚ) (n : Nat) : (lrExtras fr n).Nodup := by
  have hperm := sortBy_perm
    (fun i j => decide (fracRem (lrQuota fr n j) ≤ fracRem (lrQuota fr n i)))
    (List.range fr.length)
  have hnd : (sortBy (fun i j => decide (fracRem (lrQuota fr n j) ≤ fracRem (lrQuota fr n i)))
      (List.range fr.length)).Nodup :=
    hperm.nodup_iff.mpr (List.nodup_range fr.length)
  exact (List.take_sublist _ _).nodup hnd

theorem lrExtras_subset (fr : List ℚ) (n : Nat) :
    ∀ i ∈ lrExtras fr n, i ∈ List.range fr.length := by
  intro i hi
  have hperm := sortBy_perm
    (fun i j => decide (fracRem (lrQuota fr n j) ≤ fracRem (lrQuota fr n i)))
    (List.range fr.length)
  exact hperm.mem_iff.mp ((List.take_sublist _ _).subset hi)

theorem lrExtras_length (fr : List ℚ) (n : Nat) (h : n - (lrBase fr n).sum ≤ fr.length) :
    (lrExtras fr n).length = n - (lrBase fr n).sum := by
  rw [lrExtras, List.length_take, sortBy_length, List.length_range]
  omega

theorem lrSizes_sum (fr : List ℚ) (n : Nat) (hnn : ∀ f ∈ fr, 0 ≤ f) (hs : fr.sum = 1) :
    (lrSizes fr n).sum = n := by
  have hble := lrBase_sum_le fr n hnn hs
  have hblt := lrBase_sum_lt fr n hnn hs
  have hr : n - (lrBase fr n).sum ≤ fr.length := by omega
  have hbl : (lrBase fr n).length = fr.length := lrBase_length fr n
  rw [lrSizes, List.sum_map_add]
  have h1 : ((List.range fr.length).map (fun i => (lrBase fr n).getD i 0)).sum
      = (lrBase fr n).sum := by
    rw [← hbl, map_getD_range]
  have h2 : ((List.range fr.length).map (fun i => if i ∈ lrExtras fr n then (1 : Nat) else 0)).sum
      = n - (lrBase fr n).sum := by
    rw [sum_map_ite_mem]
    have hperm : ((List.range fr.length).filter (fun i => decide (i ∈ lrExtras fr n))).Perm
        (lrExtras fr n) := by
      rw [List.perm_ext_iff_of_nodup
        ((List.nodup_range fr.length).filter _) (lrExtras_nodup fr n)]
      intro x
      simp only [List.mem_filter, decide_eq_true_eq]
      constructor
      · exact fun h => h.2
      · exact fun h => ⟨lrExtras_subset fr n x h, h⟩
    rw [hperm.length_eq, lrExtras_length fr n hr]
  rw [h1, h2]
  omega

theorem lrSizes_getD (fr : List ℚ) (n : Nat) (i : Nat) (hi : i < fr.length) :
    (lrSizes fr n).getD i 0
      = (lrBase fr n).getD i 0 + if i ∈ lrExtras fr n then 1 else 0 := by
  rw [lrSizes, List.getD_eq_getElem?_getD, List.getElem?_map, List.getElem?_range hi]
  rfl

theorem lrBase_getD (fr : List ℚ) (n : Nat) (i : Nat) (hi : i < fr.length) :
    (lrBase fr n).getD i 0 = (⌊fr.getD i 0 * (n : ℚ)⌋).toNat := by
  rw [lrBase, List.getD_eq_getElem?_getD, List.getElem?_map, List.getElem?_eq_getElem hi]
  rw [List.getD_eq_getElem?_getD, List.getElem?_eq_getElem hi]
  rfl

theorem lrSizes_quota_bound (fr : List ℚ) (n : Nat) (i : Nat) (hi : i < fr.length)
    (hf : 0 ≤ fr.getD i 0) :
    |(((lrSizes fr n).getD i 0 : ℕ) : ℚ) - lrQuota fr n i| ≤ 1 := by
  have hq : (0 : ℚ) ≤ fr.getD i 0 * n := by positivity
  have hfl := floor_toNat_cast_of_nonneg hq
  have h1 : ((⌊fr.getD i 0 * (n : ℚ)⌋ : ℤ) : ℚ) ≤ fr.getD i 0 * n := Int.floor_le _
  have h2 : fr.getD i 0 * n < ((⌊fr.getD i 0 * (n : ℚ)⌋ : ℤ) : ℚ) + 1 :=
    Int.lt_floor_add_one _
  rw [lrSizes_getD fr n i hi, lrBase_getD fr n i hi, lrQuota, abs_le]
  by_cases h : i ∈ lrExtras fr n
  · rw [if_pos h]
    push_cast
    rw [hfl]
    constructor <;> linarith
  · rw [if_neg h]
    push_cast
    rw [hfl]
    constructor <;> linarith

theorem extFractions_sum (fr : List ℚ) : (extFractions fr).sum = 1 := by
  simp [extFractions]

theorem extFractions_nonneg (fr : List ℚ) (h1 : ∀ f ∈ fr, 0 ≤ f) (h2 : fr.sum ≤ 1) :
    ∀ f ∈ extFractions fr, 0 ≤ f := by
  intro f hf
  rcases List.mem_append.mp hf with h | h
  · exact h1 f h
  · have hs : f = 1 - fr.sum := by simpa using h
    rw [hs]
    linarith

theorem extFractions_length (fr : List ℚ) : (extFractions fr).length = fr.length + 1 := by
  simp [extFractions]

theorem extFractions_getD (fr : List ℚ) (i : Nat) (hi : i < fr.length) :
    (extFractions fr).getD i 0 = fr.getD i 0 :=
  List.getD_append fr _ 0 i hi

theorem bucketSizes_length (fr : List ℚ) (n : Nat) :
    (bucketSizes fr n).length = fr.length := by
  simp [bucketSizes, lrSizes_length, extFractions_length]

theorem lrSizes_ext_sum (fr : List ℚ) (n : Nat) (h1 : ∀ f ∈ fr, 0 ≤ f) (h2 : fr.sum ≤ 1) :
    (lrSizes (extFractions fr) n).sum = n :=
  lrSizes_sum (extFractions fr) n (extFractions_nonneg fr h1 h2) (extFractions_sum fr)

theorem bucketSizes_sum_le (fr : List ℚ) (n : Nat) (h1 : ∀ f ∈ fr, 0 ≤ f)
    (h2 : fr.sum ≤ 1) : (bucketSizes fr n).sum ≤ n := by
  calc (bucketSizes fr n).sum ≤ (lrSizes (extFractions fr) n).sum :=
        (List.dropLast_sublist _).sum_le_sum (by simp)
    _ = n := lrSizes_ext_sum fr n h1 h2

theorem bucketSizes_getD (fr : List ℚ) (n : Nat) (i : Nat) (hi : i < fr.length) :
    (bucketSizes fr n).getD i 0 = (lrSizes (extFractions fr) n).getD i 0 := by
  rw [bucketSizes, List.getD_eq_getElem?_getD, List.getD_eq_getElem?_getD,
    List.getElem?_dropLast]
  rw [lrSizes_length, extFractions_length]
  rw [if_pos (by omega)]

theorem bucketSizes_quota_bound (fr : List ℚ) (n : Nat) (i : Nat) (hi : i < fr.length)
    (hf : 0 ≤ fr.getD i 0) :
    |(((bucketSizes fr n).getD i 0 : ℕ) : ℚ) - fr.getD i 0 * n| ≤ 1 := by
  have hq := lrSizes_quota_bound (extFractions fr) n i
    (by rw [extFractions_length]; omega) (by rw [extFractions_getD fr i hi]; exact hf)
  rw [lrQuota, extFractions_getD fr i hi] at hq
  rw [bucketSizes_getD fr n i hi]
  exact hq

theorem sliceBySizes_lengths (szs : List Nat) (l : List α) (h : szs.sum ≤ l.length) :
    (sliceBySizes szs l).1.map List.length = szs := by
  induction szs generalizing l with
  | nil => simp [sliceBySizes]
  | cons s ss ih =>
    have hsum : s + ss.sum ≤ l.length := by simpa using h
    have hs : s ≤ l.length := by omega
    have hdrop : ss.sum ≤ (l.drop s).length := by
      rw [List.length_drop]
      omega
    simp only [sliceBySizes, List.map_cons]
    rw [ih _ hdrop, List.length_take, min_eq_left hs]

theorem cut_numBuckets (fr : List ℚ) (idxs : List Nat) :
    (cutByFractions fr idxs).buckets.length = fr.length := by
  simp [cutByFractions, sliceBySizes_numBuckets, bucketSizes_length]

theorem cut_bucket_length (fr : List ℚ) (idxs : List Nat) (h1 : ∀ f ∈ fr, 0 ≤ f)
    (h2 : fr.sum ≤ 1) (i : Nat) (hi : i < fr.length) :
    ((cutByFractions fr idxs).buckets.getD i []).length
      = (bucketSizes fr idxs.length).getD i 0 := by
  have hle := bucketSizes_sum_le fr idxs.length h1 h2
  have hml := sliceBySizes_lengths (bucketSizes fr idxs.length) idxs hle
  calc ((cutByFractions fr idxs).buckets.getD i []).length
      = ((cutByFractions fr idxs).buckets.map List.length).getD i 0 :=
        (List.getD_map _ _ List.length).symm
    _ = (bucketSizes fr idxs.length).getD i 0 := by
        simp only [cutByFractions]
        rw [hml]

/-- All indices mentioned by an assignment: bucket contents then discard. -/
def allOf (a : SplitAssignment) : List Nat := a.buckets.flatten ++ a.discard

theorem perm_of_eq {l1 l2 : List α} (h : l1 = l2) : l1.Perm l2 := by
  rw [h]

theorem append_perm_swap (x y z w : List α) :
    ((x ++ y) ++ (z ++ w)).Perm ((x ++ z) ++ (y ++ w)) := by
  have h : (y ++ (z ++ w)).Perm (z ++ (y ++ w)) := by
    rw [← List.append_assoc, ← List.append_assoc]
    exact List.perm_append_comm.append_right w
  rw [List.append_assoc, List.append_assoc]
  exact h.append_left x

theorem randomSplit_covers (d : Dataset) (fr : List ℚ) (seed : Nat) :
    (allOf (randomSplit d fr seed)).Perm (List.range d.length) := by
  rw [allOf, randomSplit, cutByFractions_flatten]
  exact sortBy_perm _ _

theorem numericSplit_covers (d : Dataset) (fr : List ℚ) :
    (allOf (numericSplit d fr)).Perm (List.range d.length) := by
  rw [allOf, numericSplit, cutByFractions_flatten]
  exact sortBy_perm _ _

theorem flatten_zipWith_append (as bs : List (List Nat)) (h : as.length = bs.length) :
    (List.zipWith (fun x y => x ++ y) as bs).flatten.Perm (as.flatten ++ bs.flatten) := by
  induction as generalizing bs with
  | nil =>
    cases bs with
    | nil => simp
    | cons b bt => simp at h
  | cons a at' ih =>
    cases bs with
    | nil => simp at h
    | cons b bt =>
      have hl : at'.length = bt.length := by simpa using h
      have ihr := ih bt hl
      simp only [List.zipWith_cons_cons, List.flatten_cons]
      have h1 : ((a ++ b) ++ (List.zipWith (fun x y => x ++ y) at' bt).flatten).Perm
          ((a ++ b) ++ (at'.flatten ++ bt.flatten)) := ihr.append_left _
      exact h1.trans (append_perm_swap a b at'.flatten bt.flatten)

theorem posIdxs_append_negIdxs_perm (d : Dataset) (t : Nat) :
    (posIdxs d t ++ negIdxs d t).Perm (List.range d.length) :=
  List.filter_append_perm (isPos d t) (List.range d.length)

theorem stratifiedAssign_covers (d : Dataset) (t : Nat) (fr : List ℚ) (seed : Nat) :
    (allOf (stratifiedAssign d t fr seed)).Perm (List.range d.length) := by
  rw [allOf, stratifiedAssign, mergeAssign]
  have hlen : (cutByFractions fr (shuffleIdx seed (posIdxs d t))).buckets.length
      = (cutByFractions fr (shuffleIdx (seed + 1) (negIdxs d t))).buckets.length := by
    rw [cut_numBuckets, cut_numBuckets]
  have h1 := flatten_zipWith_append _ _ hlen
  have h2 := h1.append_right
    ((cutByFractions fr (shuffleIdx seed (posIdxs d t))).discard
      ++ (cutByFractions fr (shuffleIdx (seed + 1) (negIdxs d t))).discard)
  refine h2.trans ?_
  have h3 := append_perm_swap
    (cutByFractions fr (shuffleIdx seed (posIdxs d t))).buckets.flatten
    (cutByFractions fr (shuffleIdx (seed + 1) (negIdxs d t))).buckets.flatten
    (cutByFractions fr (shuffleIdx seed (posIdxs d t))).discard
    (cutByFractions fr (shuffleIdx (seed + 1) (negIdxs d t))).discard
  refine h3.trans ?_
  rw [cutByFractions_flatten, cutByFractions_flatten]
  have h4 : (shuffleIdx seed (posIdxs d t) ++ shuffleIdx (seed + 1) (negIdxs d t)).Perm
      (posIdxs d t ++ negIdxs d t) :=
    (sortBy_perm _ _).append (sortBy_perm _ _)
  exact h4.trans (posIdxs_append_negIdxs_perm d t)

theorem placeGroup_flatten (g : List Nat) (bs : List (List Nat)) (ts : List Nat)
    (r : List (List Nat)) (h : placeGroup g bs ts = some r) :
    r.flatten.Perm (bs.flatten ++ g) := by
  induction bs generalizing ts r with
  | nil =>
    cases ts <;> simp [placeGroup] at h
  | cons b bt ih =>
    cases ts with
    | nil => simp [placeGroup] at h
    | cons t tt =>
      simp only [placeGroup] at h
      by_cases hlt : b.length < t
      · rw [if_pos hlt] at h
        have hr : r = (b ++ g) :: bt := by
          injection h with h2
          exact h2.symm
        subst hr
        simp only [List.flatten_cons, List.append_assoc]
        exact List.perm_append_comm.append_left b
      · rw [if_neg hlt] at h
        cases hp : placeGroup g bt tt with
        | none => rw [hp] at h; simp at h
        | some r2 =>
          rw [hp] at h
          have hr : r = b :: r2 := by
            simp at h
            exact h.symm
          subst hr
          have ihr := ih tt r2 hp
          simp only [List.flatten_cons]
          exact (ihr.append_left b).trans (perm_of_eq (by rw [List.append_assoc]))

theorem greedyStep_flatten (targets : List Nat) (a : SplitAssignment) (g : List Nat) :
    (allOf (greedyStep targets a g)).Perm (allOf a ++ g) := by
  rw [greedyStep]
  cases hp : placeGroup g a.buckets targets with
  | none =>
    simp only [allOf]
    exact perm_of_eq (by rw [List.append_assoc])
  | some bs =>
    have hpf := placeGroup_flatten g a.buckets targets bs hp
    simp only [allOf]
    have h1 : (bs.flatten ++ a.discard).Perm ((a.buckets.flatten ++ g) ++ a.discard) :=
      hpf.append_right a.discard
    refine h1.trans ?_
    rw [List.append_assoc, List.append_assoc]
    exact List.perm_append_comm.append_left _

theorem flatten_map_nil (l : List Nat) :
    ((l.map (fun _ => ([] : List Nat))).flatten : List Nat) = [] := by
  induction l with
  | nil => simp
  | cons a t ih => simpa using ih

theorem greedyFold_flatten (targets : List Nat) (gs : List (List Nat)) :
    ∀ a : SplitAssignment,
      (allOf (gs.foldl (greedyStep targets) a)).Perm (allOf a ++ gs.flatten) := by
  induction gs with
  | nil => intro a; simp
  | cons g gt ih =>
    intro a
    simp only [List.foldl_cons, List.flatten_cons]
    have h1 := ih (greedyStep targets a g)
    have h2 := (greedyStep_flatten targets a g).append_right gt.flatten
    exact (h1.trans h2).trans (perm_of_eq (by rw [List.append_assoc]))

theorem greedyFill_covers (targets : List Nat) (gs : List (List Nat)) :
    (allOf (greedyFill targets gs)).Perm gs.flatten := by
  have h := greedyFold_flatten targets gs ⟨targets.map (fun _ => ([] : List Nat)), []⟩
  rw [greedyFill]
  refine h.trans (perm_of_eq ?_)
  simp [allOf, flatten_map_nil]

theorem chunkBy_flatten_aux (same : Nat → Nat → Bool) (N : Nat) :
    ∀ l : List Nat, l.length ≤ N → (chunkBy same l).flatten.Perm l := by
  induction N with
  | zero =>
    intro l h
    have hl : l = [] := List.eq_nil_of_length_eq_zero (Nat.le_zero.mp h)
    subst hl
    simp [chunkBy]
  | succ N ih =>
    intro l h
    match l with
    | [] => simp [chunkBy]
    | i :: rest =>
      simp only [chunkBy, List.flatten_cons, List.cons_append]
      have hlen : (rest.filter (fun j => !(same i j))).length ≤ N := by
        have hf := List.length_filter_le (fun j => !(same i j)) rest
        simp only [List.length_cons] at h
        omega
      have ihr := ih _ hlen
      refine List.Perm.cons i ?_
      exact (ihr.append_left _).trans (List.filter_append_perm (fun j => same i j) rest)

theorem chunkBy_flatten (same : Nat → Nat → Bool) (l : List Nat) :
    (chunkBy same l).flatten.Perm l :=
  chunkBy_flatten_aux same l.length l le_rfl

theorem sortGroupsBySize_flatten (gs : List (List Nat)) :
    (sortGroupsBySize gs).flatten.Perm gs.flatten :=
  (sortBy_perm _ gs).flatten

theorem scaffoldSplit_covers (d : Dataset) (fr : List ℚ) :
    (allOf (scaffoldSplit d fr)).Perm (List.range d.length) := by
  rw [scaffoldSplit]
  refine (greedyFill_covers _ _).trans ?_
  refine (sortGroupsBySize_flatten _).trans ?_
  exact chunkBy_flatten _ _

theorem butinaSplit_covers (d : Dataset) (sim : Item → Item → ℚ) (thr : ℚ) (fr : List ℚ) :
    (allOf (butinaSplit d sim thr fr)).Perm (List.range d.length) := by
  rw [butinaSplit]
  refine (greedyFill_covers _ _).trans ?_
  refine (sortGroupsBySize_flatten _).trans ?_
  refine (chunkBy_flatten _ _).trans ?_
  exact sortBy_perm _ _

theorem maxminGo_perm (f : Nat → Nat → ℚ) (k : Nat) :
    ∀ picked remaining : List Nat,
      ((maxminGo f k picked remaining).1 ++ (maxminGo f k picked remaining).2).Perm
        (picked ++ remaining) := by
  induction k with
  | zero => intro p r; simp [maxminGo]
  | succ k ih =>
    intro p r
    rw [maxminGo]
    cases hb : pickBest f p r with
    | none => simp
    | some b =>
      have hbm : b ∈ r := List.argmax_mem hb
      have h1 := ih (p ++ [b]) (r.erase b)
      refine h1.trans ?_
      rw [List.append_assoc]
      refine List.Perm.append_left p ?_
      exact (List.perm_cons_erase hbm).symm

theorem maxminPicks_perm (d : Dataset) (dist : Item → Item → ℚ) (fr : List ℚ)
    (seed : Nat) (hd : d ≠ []) :
    ((maxminPicks d dist fr seed).1 ++ (maxminPicks d dist fr seed).2).Perm
      (List.range d.length) := by
  by_cases hk : ((bucketSizes fr d.length).drop 1).sum = 0
  · rw [maxminPicks, if_pos hk]
    exact perm_of_eq (by simp [datasetIdx])
  · rw [maxminPicks, if_neg hk]
    have hn : 0 < d.length := by
      cases d with
      | nil => exact absurd rfl hd
      | cons a t => simp
    have hm : seed % d.length ∈ datasetIdx d := by
      rw [datasetIdx, List.mem_range]
      exact Nat.mod_lt seed hn
    refine (maxminGo_perm _ _ _ _).trans ?_
    have h2 : (seed % d.length :: (datasetIdx d).erase (seed % d.length)).Perm
        (datasetIdx d) := (List.perm_cons_erase hm).symm
    simpa [datasetIdx] using h2

theorem maxminSplit_covers (d : Dataset) (dist : Item → Item → ℚ) (fr : List ℚ)
    (seed : Nat) (hd : d ≠ []) :
    (allOf (maxminSplit d dist fr seed)).Perm (List.range d.length) := by
  rw [allOf, maxminSplit]
  simp only [List.flatten_cons, List.append_assoc]
  rw [sliceBySizes_flatten]
  exact List.perm_append_comm.trans (maxminPicks_perm d dist fr seed hd)

theorem specifiedSplit_covers (n : Nat) (lists : List (List Nat)) (a : SplitAssignment)
    (h : specifiedSplit n lists = .ok a) :
    (allOf a).Perm (List.range n) := by
  rw [specifiedSplit] at h
  by_cases hv : specifiedValid n lists = true
  · rw [if_pos hv] at h
    have ha : a = ⟨lists, (List.range n).filter (fun i => !(decide (i ∈ lists.flatten)))⟩ := by
      injection h with h2
      exact h2.symm
    subst ha
    rw [specifiedValid] at hv
    simp only [Bool.and_eq_true, List.all_eq_true, decide_eq_true_eq] at hv
    obtain ⟨hall, hnd⟩ := hv
    rw [allOf]
    have hnodup : (lists.flatten
        ++ (List.range n).filter (fun i => !(decide (i ∈ lists.flatten)))).Nodup := by
      refine List.Nodup.append hnd ((List.nodup_range n).filter _) ?_
      intro x hx hx2
      have h5 : x ∉ lists.flatten := by simpa using (List.mem_filter.mp hx2).2
      exact h5 hx
    rw [List.perm_ext_iff_of_nodup hnodup (List.nodup_range n)]
    intro x
    constructor
    · intro hx
      rcases List.mem_append.mp hx with h3 | h3
      · exact List.mem_range.mpr (hall x h3)
      · exact (List.mem_filter.mp h3).1
    · intro hx
      by_cases hmem : x ∈ lists.flatten
      · exact List.mem_append.mpr (Or.inl hmem)
      · refine List.mem_append.mpr (Or.inr ?_)
        exact List.mem_filter.mpr ⟨hx, by simpa using hmem⟩
  · rw [if_neg hv] at h
    simp at h

theorem stratifiedSplit_covers (d : Dataset) (t : Nat) (fr : List ℚ) (seed : Nat)
    (a : SplitAssignment) (h : stratifiedSplit d t fr seed = .ok a) :
    (allOf a).Perm (List.range d.length) := by
  rw [stratifiedSplit] at h
  by_cases hc : ((posIdxs d t).length < nonzeroCount fr
      || (negIdxs d t).length < nonzeroCount fr) = true
  · rw [if_pos hc] at h
    simp at h
  · rw [if_neg hc] at h
    have ha : a = stratifiedAssign d t fr seed := by
      injection h with h2
      exact h2.symm
    subst ha
    exact stratifiedAssign_covers d t fr seed

theorem split_covers (d : Dataset) (st : Strategy) (fr : List ℚ) (seed : Nat)
    (a : SplitAssignment) (h : split d st fr seed = .ok a) :
    (allOf a).Perm (List.range d.length) := by
  rw [split] at h
  by_cases he : d.isEmpty = true
  · rw [if_pos he] at h
    simp at h
  · rw [if_neg he] at h
    by_cases hv : (!(validFracs fr)) = true
    · rw [if_pos hv] at h
      simp at h
    · rw [if_neg hv] at h
      have hd : d ≠ [] := by
        intro hdd
        rw [hdd] at he
        simp at he
      cases st with
      | random =>
        simp only [splitRun] at h
        have ha : a = randomSplit d fr seed := by injection h with h2; exact h2.symm
        subst ha
        exact randomSplit_covers d fr seed
      | stratified t =>
        simp only [splitRun] at h
        exact stratifiedSplit_covers d t fr seed a h
      | scaffold =>
        simp only [splitRun] at h
        have ha : a = scaffoldSplit d fr := by injection h with h2; exact h2.symm
        subst ha
        exact scaffoldSplit_covers d fr
      | butina sim thr =>
        simp only [splitRun] at h
        have ha : a = butinaSplit d sim thr fr := by injection h with h2; exact h2.symm
        subst ha
        exact butinaSplit_covers d sim thr fr
      | maxmin dist =>
        simp only [splitRun] at h
        have ha : a = maxminSplit d dist fr seed := by injection h with h2; exact h2.symm
        subst ha
        exact maxminSplit_covers d dist fr seed hd
      | numericOrdered =>
        simp only [splitRun] at h
        have ha : a = numericSplit d fr := by injection h with h2; exact h2.symm
        subst ha
        exact numericSplit_covers d fr
      | specified lists =>
        simp only [splitRun] at h
        exact specifiedSplit_covers d.length lists a h

/-- C1: for every strategy, dataset and configuration on which split
succeeds, the returned Split Assignment partitions the dataset index set:
the buckets together with the implicit discard bucket are pairwise
disjoint, no index appears twice, and their union is exactly the indices
below the dataset length. -/
theorem split_partition_invariant (d : Dataset) (st : Strategy) (fr : List ℚ) (seed : Nat)
    (a : SplitAssignment) (h : split d st fr seed = .ok a) :
    List.Pairwise List.Disjoint (a.buckets ++ [a.discard]) ∧
    (a.buckets.flatten ++ a.discard).Nodup ∧
    (∀ i, ((∃ b ∈ a.buckets, i ∈ b) ∨ i ∈ a.discard) ↔ i < d.length) := by
  have hc := split_covers d st fr seed a h
  have hnd : (a.buckets.flatten ++ a.discard).Nodup :=
    hc.nodup_iff.mpr (List.nodup_range _)
  refine ⟨?_, hnd, ?_⟩
  · have hfl : (a.buckets ++ [a.discard]).flatten.Nodup := by
      rw [List.flatten_append]
      simpa using hnd
    exact (List.nodup_flatten.mp hfl).2
  · intro i
    have hmem := hc.mem_iff (a := i)
    rw [allOf, List.mem_append, List.mem_flatten, List.mem_range] at hmem
    exact hmem

unseal Rat.add Rat.sub Rat.mul Rat.inv Rat.ofScientific chunkBy in
theorem split_partition_invariant_witness :
    ((SplitAssignment.mk [] [0]).buckets.flatten ++ (SplitAssignment.mk [] [0]).discard).Nodup ∧
    List.Pairwise List.Disjoint
      ((SplitAssignment.mk [] [0]).buckets ++ [(SplitAssignment.mk [] [0]).discard]) := by
  have h := split_partition_invariant (plainItems 1) Strategy.random [] 0 ⟨[], [0]⟩ (by decide)
  exact ⟨h.2.1, h.1⟩

/-- C2: split is a pure function of the tuple (dataset, strategy,
fractions, seed): two calls with identical inputs and the same seed
produce identical Split Assignments; the model threads the seed as an
explicit value and has no global random state. -/
theorem split_deterministic (d1 d2 : Dataset) (st1 st2 : Strategy) (fr1 fr2 : List ℚ)
    (s1 s2 : Nat) (hd : d1 = d2) (hst : st1 = st2) (hfr : fr1 = fr2) (hs : s1 = s2) :
    split d1 st1 fr1 s1 = split d2 st2 fr2 s2 := by
  subst hd
  subst hst
  subst hfr
  subst hs
  rfl

theorem split_deterministic_witness :
    split (plainItems 4) Strategy.random [1 / 2] 7 = split (plainItems 4) Strategy.random [1 / 2] 7 :=
  split_deterministic (plainItems 4) (plainItems 4) Strategy.random Strategy.random
    [1 / 2] [1 / 2] 7 7 rfl rfl rfl rfl

/-- C3: split signals InvalidConfiguration whenever a fraction is
negative, the fractions sum beyond one plus the tolerance, or the dataset
is empty; the Stratified Splitter signals InsufficientData when a class
is too small to populate every non-zero-fraction bucket; and an error
outcome excludes any returned assignment. -/
theorem split_error_conditions :
    (∀ (d : Dataset) (st : Strategy) (fr : List ℚ) (s : Nat),
      (d = [] ∨ (∃ f ∈ fr, f < 0) ∨ 1 + tolerance < fr.sum) →
      split d st fr s = .error .invalidConfiguration) ∧
    (∀ (d : Dataset) (t : Nat) (fr : List ℚ) (s : Nat),
      d ≠ [] → validFracs fr = true →
      ((posIdxs d t).length < nonzeroCount fr ∨ (negIdxs d t).length < nonzeroCount fr) →
      split d (.stratified t) fr s = .error .insufficientData) ∧
    (∀ (d : Dataset) (st : Strategy) (fr : List ℚ) (s : Nat) (e : SplitError)
      (a : SplitAssignment),
      split d st fr s = .error e → split d st fr s ≠ .ok a) := by
  refine ⟨?_, ?_, ?_⟩
  · intro d st fr s hbad
    rcases hbad with hbad | hbad | hbad
    · subst hbad
      rw [split]
      simp
    · have hv : ¬ validFracs fr = true := by
        rw [validFracs]
        simp only [Bool.and_eq_true, List.all_eq_true, decide_eq_true_eq]
        rintro ⟨hall, hsum⟩
        obtain ⟨f, hf, hneg⟩ := hbad
        have := hall f hf
        linarith
      rw [split]
      by_cases he : d.isEmpty = true
      · rw [if_pos he]
      · rw [if_neg he, if_pos (by simpa using hv)]
    · have hv : ¬ validFracs fr = true := by
        rw [validFracs]
        simp only [Bool.and_eq_true, List.all_eq_true, decide_eq_true_eq]
        rintro ⟨hall, hsum⟩
        linarith
      rw [split]
      by_cases he : d.isEmpty = true
      · rw [if_pos he]
      · rw [if_neg he, if_pos (by simpa using hv)]
  · intro d t fr s hd hv hsmall
    have he : ¬ d.isEmpty = true := by
      cases d with
      | nil => exact absurd rfl hd
      | cons a l => simp
    rw [split, if_neg he, if_neg (by simp [hv])]
    simp only [splitRun, stratifiedSplit]
    rw [if_pos (by simpa using hsmall)]
  · intro d st fr s e a herr hok
    rw [herr] at hok
    simp at hok

unseal Rat.add Rat.sub Rat.mul Rat.inv Rat.ofScientific chunkBy in
theorem split_error_conditions_witness :
    split [] Strategy.random [] 0 = .error .invalidConfiguration ∧
    split (plainItems 4) (.stratified 0) [1 / 2, 1 / 2] 0 = .error .insufficientData := by
  refine ⟨split_error_conditions.1 [] Strategy.random [] 0 (Or.inl rfl), ?_⟩
  exact split_error_conditions.2.1 (plainItems 4) 0 [1 / 2, 1 / 2] 0 (by decide) (by decide)
    (by decide)

theorem pairwise_insertBy {R : α → α → Prop} (le : α → α → Bool)
    (hle : ∀ x y, le x y = true → R x y)
    (hgt : ∀ x y, le x y = false → R y x)
    (htr : ∀ x y z, R x y → R y z → R x z)
    (a : α) (l : List α) (hl : l.Pairwise R) :
    (insertBy le a l).Pairwise R := by
  induction l with
  | nil => simp [insertBy]
  | cons b t ih =>
    rw [insertBy]
    rcases List.pairwise_cons.mp hl with ⟨hbt, ht⟩
    by_cases h : le a b = true
    · rw [if_pos h]
      refine List.pairwise_cons.mpr ⟨?_, hl⟩
      intro x hx
      rcases List.mem_cons.mp hx with rfl | hx
      · exact hle a x h
      · exact htr a b x (hle a b h) (hbt x hx)
    · rw [if_neg h]
      refine List.pairwise_cons.mpr ⟨?_, ih ht⟩
      intro x hx
      have hx2 := (insertBy_perm le a t).mem_iff.mp hx
      rcases List.mem_cons.mp hx2 with rfl | hx2
      · exact hgt x b (Bool.eq_false_iff.mpr h)
      · exact hbt x hx2

theorem pairwise_sortBy {R : α → α → Prop} (le : α → α → Bool)
    (hle : ∀ x y, le x y = true → R x y)
    (hgt : ∀ x y, le x y = false → R y x)
    (htr : ∀ x y z, R x y → R y z → R x z)
    (l : List α) : (sortBy le l).Pairwise R := by
  induction l with
  | nil => simp [sortBy]
  | cons a t ih => exact pairwise_insertBy le hle hgt htr a _ ih

/-- C7: the Random Splitter cuts a seed-controlled pseudorandom
permutation of the index set into contiguous runs whose sizes are given
by largest-remainder rounding of the fractions times the dataset size,
and the bucket sizes together with the discard size sum to the dataset
size exactly. -/
theorem randomSplit_sizes (d : Dataset) (fr : List ℚ) (seed : Nat)
    (h1 : ∀ f ∈ fr, 0 ≤ f) (h2 : fr.sum ≤ 1) :
    (shuffleIdx seed (datasetIdx d)).Perm (datasetIdx d) ∧
    ((randomSplit d fr seed).buckets.flatten ++ (randomSplit d fr seed).discard)
      = shuffleIdx seed (datasetIdx d) ∧
    (∀ i, i < fr.length →
      ((randomSplit d fr seed).buckets.getD i []).length
        = (bucketSizes fr d.length).getD i 0) ∧
    ((randomSplit d fr seed).buckets.map List.length).sum
      + (randomSplit d fr seed).discard.length = d.length := by
  have hlen : (shuffleIdx seed (datasetIdx d)).length = d.length := by
    rw [shuffleIdx, sortBy_length, datasetIdx, List.length_range]
  refine ⟨sortBy_perm _ _, cutByFractions_flatten fr _, ?_, ?_⟩
  · intro i hi
    have hc := cut_bucket_length fr (shuffleIdx seed (datasetIdx d)) h1 h2 i hi
    rw [hlen] at hc
    exact hc
  · have hflat := cutByFractions_flatten fr (shuffleIdx seed (datasetIdx d))
    have hcong := congrArg List.length hflat
    rw [List.length_append, List.length_flatten, hlen] at hcong
    exact hcong

unseal Rat.add Rat.sub Rat.mul Rat.inv Rat.ofScientific in
theorem randomSplit_sizes_witness :
    ((randomSplit (plainItems 4) [1 / 2, 1 / 4] 42).buckets.getD 0 []).length
      = (bucketSizes [1 / 2, 1 / 4] 4).getD 0 0 ∧
    ((randomSplit (plainItems 4) [1 / 2, 1 / 4] 42).buckets.map List.length).sum
      + (randomSplit (plainItems 4) [1 / 2, 1 / 4] 42).discard.length = 4 := by
  have h := randomSplit_sizes (plainItems 4) [1 / 2, 1 / 4] 42 (by decide) (by decide)
  exact ⟨h.2.2.1 0 (by decide), h.2.2.2⟩

/-- C10: the Numeric-Attribute-Ordered Splitter returns contiguous slices
of the index list sorted ascending by the numeric attribute, sized by the
fractions exactly as the Random Splitter sizes them, and is independent
of the seed. -/
theorem numericSplit_spec (d : Dataset) (fr : List ℚ) (s1 s2 : Nat)
    (h1 : ∀ f ∈ fr, 0 ≤ f) (h2 : fr.sum ≤ 1) :
    List.Pairwise
      (fun i j => (itemAt d i).numeric_attribute ≤ (itemAt d j).numeric_attribute)
      (numericOrder d) ∧
    ((numericSplit d fr).buckets.flatten ++ (numericSplit d fr).discard) = numericOrder d ∧
    (∀ i, i < fr.length → ∀ seed,
      ((numericSplit d fr).buckets.getD i []).length
        = ((randomSplit d fr seed).buckets.getD i []).length) ∧
    split d .numericOrdered fr s1 = split d .numericOrdered fr s2 := by
  refine ⟨?_, cutByFractions_flatten fr _, ?_, rfl⟩
  · apply pairwise_sortBy
    · intro x y h
      exact of_decide_eq_true h
    · intro x y h
      have hlt : ¬ (itemAt d x).numeric_attribute ≤ (itemAt d y).numeric_attribute :=
        of_decide_eq_false h
      exact le_of_not_le hlt
    · intro x y z hxy hyz
      exact le_trans hxy hyz
  · intro i hi seed
    have hn := cut_bucket_length fr (numericOrder d) h1 h2 i hi
    have hr := cut_bucket_length fr (shuffleIdx seed (datasetIdx d)) h1 h2 i hi
    have hln : (numericOrder d).length = d.length := by
      rw [numericOrder, sortBy_length, datasetIdx, List.length_range]
    have hlr : (shuffleIdx seed (datasetIdx d)).length = d.length := by
      rw [shuffleIdx, sortBy_length, datasetIdx, List.length_range]
    rw [hln] at hn
    rw [hlr] at hr
    simp only [numericSplit, randomSplit]
    rw [hn, hr]

unseal Rat.add Rat.sub Rat.mul Rat.inv Rat.ofScientific in
theorem numericSplit_spec_witness :
    ((numericSplit weightData3 [1 / 2]).buckets.getD 0 []).length
      = ((randomSplit weightData3 [1 / 2] 9).buckets.getD 0 []).length ∧
    split weightData3 .numericOrdered [1 / 2] 3 = split weightData3 .numericOrdered [1 / 2] 8 := by
  have h := numericSplit_spec weightData3 [1 / 2] 3 8 (by decide) (by decide)
  exact ⟨h.2.2.1 0 (by decide) 9, h.2.2.2⟩

/-- C6: the Externally-Specified Splitter returns exactly the provided
assignment unchanged (with the unmentioned indices discarded) when the
provided lists are disjoint without repetition and within range, and
signals InvalidConfiguration when they overlap or leave the range. -/
theorem specifiedSplit_spec :
    (∀ (d : Dataset) (lists : List (List Nat)) (fr : List ℚ) (s : Nat),
      d ≠ [] → validFracs fr = true →
      lists.flatten.Nodup → (∀ i ∈ lists.flatten, i < d.length) →
      split d (.specified lists) fr s
        = .ok ⟨lists,
            (List.range d.length).filter (fun i => !(decide (i ∈ lists.flatten)))⟩) ∧
    (∀ (d : Dataset) (lists : List (List Nat)) (fr : List ℚ) (s : Nat),
      d ≠ [] → validFracs fr = true →
      (¬ lists.flatten.Nodup ∨ ∃ i ∈ lists.flatten, ¬ i < d.length) →
      split d (.specified lists) fr s = .error .invalidConfiguration) := by
  constructor
  · intro d lists fr s hd hv hnd hrange
    have he : ¬ d.isEmpty = true := by
      cases d with
      | nil => exact absurd rfl hd
      | cons a l => simp
    rw [split, if_neg he, if_neg (by simp [hv])]
    simp only [splitRun, specifiedSplit]
    rw [if_pos ?_]
    rw [specifiedValid]
    simp only [Bool.and_eq_true, List.all_eq_true, decide_eq_true_eq]
    exact ⟨hrange, hnd⟩
  · intro d lists fr s hd hv hbad
    have he : ¬ d.isEmpty = true := by
      cases d with
      | nil => exact absurd rfl hd
      | cons a l => simp
    rw [split, if_neg he, if_neg (by simp [hv])]
    simp only [splitRun, specifiedSplit]
    rw [if_neg ?_]
    rw [specifiedValid]
    simp only [Bool.and_eq_true, List.all_eq_true, decide_eq_true_eq]
    rintro ⟨hall, hnd⟩
    rcases hbad with hbad | ⟨i, hi, hbad⟩
    · exact hbad hnd
    · exact hbad (hall i hi)

unseal Rat.add Rat.sub Rat.mul Rat.inv Rat.ofScientific in
theorem specifiedSplit_spec_witness :
    split (plainItems 5) (.specified [[0, 1, 2], [3, 4]]) [1 / 2] 0
      = .ok ⟨[[0, 1, 2], [3, 4]],
          (List.range 5).filter
            (fun i => !(decide (i ∈ ([[0, 1, 2], [3, 4]] : List (List Nat)).flatten)))⟩ ∧
    split (plainItems 5) (.specified [[0, 1], [1, 2]]) [1 / 2] 0
      = .error .invalidConfiguration := by
  constructor
  · exact specifiedSplit_spec.1 (plainItems 5) [[0, 1, 2], [3, 4]] [1 / 2] 0
      (by decide) (by decide) (by decide) (by decide)
  · exact specifiedSplit_spec.2 (plainItems 5) [[0, 1], [1, 2]] [1 / 2] 0
      (by decide) (by decide) (Or.inl (by decide))

theorem foldr_min_append (A B : List (WithTop ℚ)) :
    (A ++ B).foldr min ⊤ = min (A.foldr min ⊤) (B.foldr min ⊤) := by
  induction A with
  | nil => simp
  | cons a t ih =>
    simp only [List.cons_append, List.foldr_cons, ih, min_assoc]

theorem minDistTo_append (f : Nat → Nat → ℚ) (x : Nat) (l m : List Nat) :
    minDistTo f x (l ++ m) = min (minDistTo f x l) (minDistTo f x m) := by
  rw [minDistTo, minDistTo, minDistTo, List.map_append, foldr_min_append]

theorem minDistTo_mono (f : Nat → Nat → ℚ) (x : Nat) (l m : List Nat) :
    minDistTo f x (l ++ m) ≤ minDistTo f x l := by
  rw [minDistTo_append]
  exact min_le_left _ _

/-- C9: in the farthest-point sampling of the Extremes-first Splitter,
the minimum distance from any already-picked item to the picked set never
increases as further items are picked: at any later step the picked list
is an extension of the earlier one, and the minimum over the extension is
at most the earlier minimum. -/
theorem maxmin_minDist_nonincreasing (d : Dataset) (dist : Item → Item → ℚ)
    (fr : List ℚ) (seed : Nat) (x : Nat) (i j : Nat) (hij : i ≤ j)
    (hx : x ∈ (maxminPicks d dist fr seed).1.take i) :
    minDistTo (distIdx d dist) x ((maxminPicks d dist fr seed).1.take j)
      ≤ minDistTo (distIdx d dist) x ((maxminPicks d dist fr seed).1.take i) := by
  have htake : (maxminPicks d dist fr seed).1.take j
      = (maxminPicks d dist fr seed).1.take i
        ++ ((maxminPicks d dist fr seed).1.drop i).take (j - i) := by
    rw [← List.take_add]
    congr 1
    omega
  rw [htake]
  exact minDistTo_mono _ _ _ _

unseal Rat.add Rat.sub Rat.mul Rat.inv Rat.ofScientific in
theorem maxmin_minDist_nonincreasing_witness :
    0 ∈ (maxminPicks (plainItems 4) sqDist [1 / 2, 1 / 4, 1 / 4] 0).1.take 1 ∧
    minDistTo (distIdx (plainItems 4) sqDist) 0
        ((maxminPicks (plainItems 4) sqDist [1 / 2, 1 / 4, 1 / 4] 0).1.take 2)
      ≤ minDistTo (distIdx (plainItems 4) sqDist) 0
        ((maxminPicks (plainItems 4) sqDist [1 / 2, 1 / 4, 1 / 4] 0).1.take 1) := by
  refine ⟨by decide, ?_⟩
  exact maxmin_minDist_nonincreasing (plainItems 4) sqDist [1 / 2, 1 / 4, 1 / 4] 0 0 1 2
    (by decide) (by decide)

theorem chunkBy_singletons_aux (same : Nat → Nat → Bool) (N : Nat) :
    ∀ l : List Nat, l.length ≤ N → l.Nodup →
      (∀ x ∈ l, ∀ y ∈ l, x ≠ y → same x y = false) →
      (chunkBy same l).length = l.length := by
  induction N with
  | zero =>
    intro l h _ _
    have hl : l = [] := List.eq_nil_of_length_eq_zero (Nat.le_zero.mp h)
    subst hl
    simp [chunkBy]
  | succ N ih =>
    intro l h hnd hf
    match l with
    | [] => simp [chunkBy]
    | i :: rest =>
      rcases List.pairwise_cons.mp hnd with ⟨hir, hndr⟩
      have hfilt : rest.filter (fun j => same i j) = [] := by
        rw [List.filter_eq_nil_iff]
        intro j hj
        have hne : i ≠ j := fun hct => (hir j hj) hct
        simp [hf i (by simp) j (by simp [hj]) hne]
      have hkeep : rest.filter (fun j => !(same i j)) = rest := by
        rw [List.filter_eq_self]
        intro j hj
        have hne : i ≠ j := fun hct => (hir j hj) hct
        simp [hf i (by simp) j (by simp [hj]) hne]
      simp only [chunkBy, hkeep, List.length_cons]
      have hlen : rest.length ≤ N := by
        simp only [List.length_cons] at h
        omega
      rw [ih rest hlen hndr]
      intro x hx y hy hxy
      exact hf x (by simp [hx]) y (by simp [hy]) hxy

/-- C8 amended: the cluster count of the Similarity-Clustering Splitter
is not monotone in the threshold in general; what holds is that once the
threshold exceeds every pairwise similarity between distinct items, no
absorption happens and the cluster count reaches its maximum, one cluster
per item. -/
theorem butina_threshold_above_all (d : Dataset) (sim : Item → Item → ℚ) (thr : ℚ)
    (h : ∀ i ∈ datasetIdx d, ∀ j ∈ datasetIdx d, i ≠ j → simIdx d sim i j < thr) :
    (butinaClusters d sim thr).length = d.length := by
  rw [butinaClusters]
  have hperm : (butinaOrder d sim thr).Perm (datasetIdx d) := sortBy_perm _ _
  have hlen : (butinaOrder d sim thr).length = d.length := by
    rw [butinaOrder, sortBy_length, datasetIdx, List.length_range]
  rw [← hlen]
  refine chunkBy_singletons_aux _ (butinaOrder d sim thr).length _ le_rfl ?_ ?_
  · exact hperm.nodup_iff.mpr (by rw [datasetIdx]; exact List.nodup_range _)
  · intro x hx y hy hxy
    have hx2 := hperm.mem_iff.mp hx
    have hy2 := hperm.mem_iff.mp hy
    exact decide_eq_false (not_le.mpr (h x hx2 y hy2 hxy))

unseal Rat.add Rat.sub Rat.mul Rat.inv Rat.ofScientific chunkBy in
theorem butina_threshold_above_all_witness :
    (butinaClusters (plainItems 5) simEx 2).length = (plainItems 5 : Dataset).length :=
  butina_threshold_above_all (plainItems 5) simEx 2 (by decide)

unseal Rat.add Rat.sub Rat.mul Rat.inv Rat.ofScientific chunkBy in
/-- C8 counterexample: on a fixed five-item dataset with the injected
symmetric similarity simEx, raising the threshold from 3/10 to 3/5
decreases the cluster count from three to two, so the count is not
monotonically non-decreasing in the threshold. -/
theorem butina_monotone_counterexample :
    (3 / 10 : ℚ) < 3 / 5 ∧
    (butinaClusters (plainItems 5) simEx (3 / 10)).length = 3 ∧
    (butinaClusters (plainItems 5) simEx (3 / 5)).length = 2 := by
  refine ⟨by decide, by decide, by decide⟩

theorem le_maxGroupSize (gs : List (List Nat)) : ∀ g ∈ gs, g.length ≤ maxGroupSize gs := by
  induction gs with
  | nil =>
    intro g hg
    simp at hg
  | cons g0 gt ih =>
    intro g hg
    rcases List.mem_cons.mp hg with rfl | hg2
    · simp only [maxGroupSize, List.map_cons, List.foldr_cons]
      exact le_max_left _ _
    · refine le_trans (ih g hg2) ?_
      simp only [maxGroupSize, List.map_cons, List.foldr_cons]
      exact le_max_right _ _

theorem chunkBy_subset (same : Nat → Nat → Bool) (l : List Nat) :
    ∀ g ∈ chunkBy same l, ∀ a ∈ g, a ∈ l := by
  intro g hg a ha
  exact (chunkBy_flatten same l).mem_iff.mp (List.mem_flatten.mpr ⟨g, hg, ha⟩)

theorem chunkKey_mem_iff (f : Nat → Option Nat) (N : Nat) :
    ∀ l : List Nat, l.length ≤ N → ∀ x y, f x = f y → x ∈ l → y ∈ l →
      ∀ g ∈ chunkBy (fun i j => decide (f j = f i)) l, (x ∈ g ↔ y ∈ g) := by
  induction N with
  | zero =>
    intro l h x y hf hx hy g hg
    have hl : l = [] := List.eq_nil_of_length_eq_zero (Nat.le_zero.mp h)
    subst hl
    simp at hx
  | succ N ih =>
    intro l h x y hf hx hy g hg
    match l, hx, hy, h, hg with
    | [], hx, _, _, _ => simp at hx
    | i :: rest, hx, hy, h, hg =>
      simp only [chunkBy] at hg
      rcases List.mem_cons.mp hg with rfl | hg2
      · have hmem : ∀ z, z ∈ i :: rest ∧ f z = f i
            ↔ z ∈ i :: rest.filter (fun j => decide (f j = f i)) := by
          intro z
          constructor
          · rintro ⟨hz, hzf⟩
            rcases List.mem_cons.mp hz with rfl | hz2
            · exact List.mem_cons_self _ _
            · exact List.mem_cons.mpr (Or.inr (List.mem_filter.mpr ⟨hz2, by simp [hzf]⟩))
          · intro hz
            rcases List.mem_cons.mp hz with rfl | hz2
            · exact ⟨List.mem_cons_self _ _, rfl⟩
            · rcases List.mem_filter.mp hz2 with ⟨h3, h4⟩
              exact ⟨List.mem_cons.mpr (Or.inr h3), by simpa using h4⟩
        constructor
        · intro hxg
          exact (hmem y).mp ⟨hy, by rw [← hf]; exact ((hmem x).mpr hxg).2⟩
        · intro hyg
          exact (hmem x).mp ⟨hx, by rw [hf]; exact ((hmem y).mpr hyg).2⟩
      · by_cases hfi : f x = f i
        · have hgsub := chunkBy_subset _ _ g hg2
          constructor
          · intro hxg
            have hxm := hgsub x hxg
            rcases List.mem_filter.mp hxm with ⟨h5, h6⟩
            simp [hfi] at h6
          · intro hyg
            have hym := hgsub y hyg
            rcases List.mem_filter.mp hym with ⟨h5, h6⟩
            have hfyi : f y = f i := by rw [← hf]; exact hfi
            simp [hfyi] at h6
        · have hfyi : ¬ f y = f i := by rw [← hf]; exact hfi
          have hx2 : x ∈ rest.filter (fun j => !(decide (f j = f i))) := by
            rcases List.mem_cons.mp hx with rfl | hx3
            · exact absurd rfl hfi
            · exact List.mem_filter.mpr ⟨hx3, by simp [hfi]⟩
          have hy2 : y ∈ rest.filter (fun j => !(decide (f j = f i))) := by
            rcases List.mem_cons.mp hy with rfl | hy3
            · exact absurd rfl hfyi
            · exact List.mem_filter.mpr ⟨hy3, by simp [hfyi]⟩
          have hlen : (rest.filter (fun j => !(decide (f j = f i)))).length ≤ N := by
            have hfl := List.length_filter_le (fun j => !(decide (f j = f i))) rest
            simp only [List.length_cons] at h
            omega
          exact ih _ hlen x y hf hx2 hy2 g hg2

theorem placeGroup_mem_iff (g : List Nat) (bs : List (List Nat)) (ts : List Nat)
    (r : List (List Nat)) (h : placeGroup g bs ts = some r) (x y : Nat)
    (hg : x ∈ g ↔ y ∈ g) (hbs : ∀ b ∈ bs, (x ∈ b ↔ y ∈ b)) :
    ∀ b ∈ r, (x ∈ b ↔ y ∈ b) := by
  induction bs generalizing ts r with
  | nil => cases ts <;> simp [placeGroup] at h
  | cons b bt ih =>
    cases ts with
    | nil => simp [placeGroup] at h
    | cons t tt =>
      simp only [placeGroup] at h
      by_cases hlt : b.length < t
      · rw [if_pos hlt] at h
        have hr : r = (b ++ g) :: bt := by injection h with h2; exact h2.symm
        subst hr
        intro c hc
        rcases List.mem_cons.mp hc with rfl | hc2
        · have hb := hbs b (List.mem_cons_self b bt)
          simp only [List.mem_append]
          exact or_congr hb hg
        · exact hbs c (List.mem_cons.mpr (Or.inr hc2))
      · rw [if_neg hlt] at h
        cases hp : placeGroup g bt tt with
        | none => rw [hp] at h; simp at h
        | some r2 =>
          rw [hp] at h
          have hr : r = b :: r2 := by simp at h; exact h.symm
          subst hr
          intro c hc
          rcases List.mem_cons.mp hc with rfl | hc2
          · exact hbs c (List.mem_cons_self _ _)
          · exact ih tt r2 hp (fun b2 hb2 => hbs b2 (List.mem_cons.mpr (Or.inr hb2))) c hc2

theorem greedyFold_colocate (targets : List Nat) (x y : Nat) :
    ∀ gs : List (List Nat), (∀ g ∈ gs, (x ∈ g ↔ y ∈ g)) →
    ∀ a : SplitAssignment, (∀ b ∈ a.buckets, (x ∈ b ↔ y ∈ b)) →
      (x ∈ a.discard ↔ y ∈ a.discard) →
      (∀ b ∈ (gs.foldl (greedyStep targets) a).buckets, (x ∈ b ↔ y ∈ b)) ∧
      ((x ∈ (gs.foldl (greedyStep targets) a).discard)
        ↔ (y ∈ (gs.foldl (greedyStep targets) a).discard)) := by
  intro gs
  induction gs with
  | nil =>
    intro _ a h1 h2
    exact ⟨h1, h2⟩
  | cons g gt ih =>
    intro hg a h1 h2
    simp only [List.foldl_cons]
    refine ih (fun g2 hg2 => hg g2 (List.mem_cons.mpr (Or.inr hg2))) (greedyStep targets a g)
      ?_ ?_
    · rw [greedyStep]
      cases hp : placeGroup g a.buckets targets with
      | none => exact h1
      | some bs =>
        exact placeGroup_mem_iff g a.buckets targets bs hp x y
          (hg g (List.mem_cons_self _ _)) h1
    · rw [greedyStep]
      cases hp : placeGroup g a.buckets targets with
      | none =>
        simp only [List.mem_append]
        exact or_congr h2 (hg g (List.mem_cons_self _ _))
      | some bs => exact h2

theorem placeGroup_length (g : List Nat) (bs : List (List Nat)) (ts : List Nat)
    (r : List (List Nat)) (h : placeGroup g bs ts = some r) :
    ∀ i, (r.getD i []).length = (bs.getD i []).length ∨
      ((bs.getD i []).length < ts.getD i 0 ∧
        (r.getD i []).length = (bs.getD i []).length + g.length) := by
  induction bs generalizing ts r with
  | nil => cases ts <;> simp [placeGroup] at h
  | cons b bt ih =>
    cases ts with
    | nil => simp [placeGroup] at h
    | cons t tt =>
      simp only [placeGroup] at h
      by_cases hlt : b.length < t
      · rw [if_pos hlt] at h
        have hr : r = (b ++ g) :: bt := by injection h with h2; exact h2.symm
        subst hr
        intro i
        cases i with
        | zero =>
          right
          exact ⟨by simpa using hlt, by simp⟩
        | succ i =>
          left
          simp [List.getD_cons_succ]
      · rw [if_neg hlt] at h
        cases hp : placeGroup g bt tt with
        | none => rw [hp] at h; simp at h
        | some r2 =>
          rw [hp] at h
          have hr : r = b :: r2 := by simp at h; exact h.symm
          subst hr
          intro i
          cases i with
          | zero =>
            left
            simp
          | succ i =>
            have hi := ih tt r2 hp i
            simpa [List.getD_cons_succ] using hi

theorem greedyFold_overshoot (targets : List Nat) (M : Nat) :
    ∀ gs : List (List Nat), (∀ g ∈ gs, g.length ≤ M) →
    ∀ a : SplitAssignment,
      (∀ i, (a.buckets.getD i []).length ≤ targets.getD i 0 + M) →
      ∀ i, ((gs.foldl (greedyStep targets) a).buckets.getD i []).length
        ≤ targets.getD i 0 + M := by
  intro gs
  induction gs with
  | nil =>
    intro _ a h i
    exact h i
  | cons g gt ih =>
    intro hM a h i
    simp only [List.foldl_cons]
    refine ih (fun g2 hg2 => hM g2 (List.mem_cons.mpr (Or.inr hg2))) (greedyStep targets a g)
      ?_ i
    intro j
    rw [greedyStep]
    cases hp : placeGroup g a.buckets targets with
    | none => exact h j
    | some bs =>
      rcases placeGroup_length g a.buckets targets bs hp j with heq | ⟨hlt, heq⟩
      · show (bs.getD j []).length ≤ targets.getD j 0 + M
        rw [heq]
        exact h j
      · show (bs.getD j []).length ≤ targets.getD j 0 + M
        rw [heq]
        have hgM : g.length ≤ M := hM g (List.mem_cons_self _ _)
        omega

theorem split_ok_scaffold (d : Dataset) (fr : List ℚ) (s : Nat) (a : SplitAssignment)
    (h : split d .scaffold fr s = .ok a) : a = scaffoldSplit d fr := by
  rw [split] at h
  by_cases he : d.isEmpty = true
  · rw [if_pos he] at h
    simp at h
  · rw [if_neg he] at h
    by_cases hv : (!(validFracs fr)) = true
    · rw [if_pos hv] at h
      simp at h
    · rw [if_neg hv] at h
      simp only [splitRun] at h
      injection h with h2
      exact h2.symm

theorem initBuckets_getD (targets : List Nat) (i : Nat) :
    ((targets.map (fun _ => ([] : List Nat))).getD i []) = [] := by
  rw [List.getD_eq_getElem?_getD, List.getElem?_map]
  cases targets[i]? <;> simp

/-- C5 amended: items sharing a group key are always co-located in the
same bucket of the Group-based Splitter, and every bucket exceeds its
requested target size by at most the largest group size; a bucket can
however fall short of its target by more than the largest group size, so
the deviation is one-sided (see the counterexample). -/
theorem scaffold_spec (d : Dataset) (fr : List ℚ) (s : Nat) (a : SplitAssignment)
    (h : split d .scaffold fr s = .ok a) :
    (∀ x y, x < d.length → y < d.length → keyOf d x = keyOf d y →
      ∀ b ∈ a.buckets ++ [a.discard], (x ∈ b ↔ y ∈ b)) ∧
    (∀ i, (a.buckets.getD i []).length
      ≤ (bucketSizes fr d.length).getD i 0 + maxGroupSize (scaffoldGroups d)) := by
  have ha := split_ok_scaffold d fr s a h
  subst ha
  constructor
  · intro x y hx hy hkey b hb
    have hgs : ∀ g ∈ scaffoldGroups d, (x ∈ g ↔ y ∈ g) := by
      intro g hg
      have hg2 : g ∈ chunkBy (fun i j => decide (keyOf d j = keyOf d i)) (datasetIdx d) :=
        (sortBy_perm _ _).mem_iff.mp hg
      exact chunkKey_mem_iff (keyOf d) (datasetIdx d).length (datasetIdx d) le_rfl x y hkey
        (by rw [datasetIdx, List.mem_range]; exact hx)
        (by rw [datasetIdx, List.mem_range]; exact hy) g hg2
    have hc := greedyFold_colocate (bucketSizes fr d.length) x y (scaffoldGroups d) hgs
      ⟨(bucketSizes fr d.length).map (fun _ => ([] : List Nat)), []⟩
      (by
        intro b2 hb2
        rcases List.mem_map.mp hb2 with ⟨_, _, hb3⟩
        rw [← hb3]
        simp)
      (by simp)
    rcases List.mem_append.mp hb with hb2 | hb2
    · exact hc.1 b hb2
    · have hbd : b = (scaffoldSplit d fr).discard := by simpa using hb2
      subst hbd
      exact hc.2
  · intro i
    have ho := greedyFold_overshoot (bucketSizes fr d.length)
      (maxGroupSize (scaffoldGroups d)) (scaffoldGroups d) (le_maxGroupSize _)
      ⟨(bucketSizes fr d.length).map (fun _ => ([] : List Nat)), []⟩
      (by
        intro j
        rw [initBuckets_getD]
        simp)
      i
    exact ho

unseal Rat.add Rat.sub Rat.mul Rat.inv Rat.ofScientific chunkBy in
theorem scaffold_spec_witness :
    split groupedData12 .scaffold [1 / 3, 1 / 3, 1 / 3] 0
      = .ok ⟨[[0, 1, 2, 3, 4, 5], [6, 7, 8, 9, 10, 11], []], []⟩ ∧
    ((([[0, 1, 2, 3, 4, 5], [6, 7, 8, 9, 10, 11], []] : List (List Nat)).getD 0 []).length
      ≤ (bucketSizes [1 / 3, 1 / 3, 1 / 3] 12).getD 0 0
        + maxGroupSize (scaffoldGroups groupedData12)) := by
  have h := scaffold_spec groupedData12 [1 / 3, 1 / 3, 1 / 3] 0
    ⟨[[0, 1, 2, 3, 4, 5], [6, 7, 8, 9, 10, 11], []], []⟩ (by decide)
  exact ⟨by decide, h.2 0⟩

unseal Rat.add Rat.sub Rat.mul Rat.inv Rat.ofScientific chunkBy in
/-- C5 counterexample: on twelve items in four groups of three with
fractions a third each, the greedy fill gives bucket sizes six, six and
zero against targets of four each, so the third bucket deviates from its
target by four, which exceeds the largest group size three. -/
theorem scaffold_deviation_counterexample :
    split groupedData12 .scaffold [1 / 3, 1 / 3, 1 / 3] 0
      = .ok ⟨[[0, 1, 2, 3, 4, 5], [6, 7, 8, 9, 10, 11], []], []⟩ ∧
    (bucketSizes [1 / 3, 1 / 3, 1 / 3] 12).getD 2 0 = 4 ∧
    (([[0, 1, 2, 3, 4, 5], [6, 7, 8, 9, 10, 11], []] : List (List Nat)).getD 2 []).length = 0 ∧
    maxGroupSize (scaffoldGroups groupedData12) = 3 ∧
    3 < 4 - 0 := by
  refine ⟨by decide, by decide, by decide, by decide, by decide⟩

theorem zipWith_append_getD (as bs : List (List Nat)) (i : Nat)
    (h1 : i < as.length) (h2 : i < bs.length) :
    (List.zipWith (fun x y => x ++ y) as bs).getD i [] = as.getD i [] ++ bs.getD i [] := by
  induction as generalizing bs i with
  | nil => simp at h1
  | cons a at' ih =>
    cases bs with
    | nil => simp at h2
    | cons b bt =>
      cases i with
      | zero => simp
      | succ i =>
        simp only [List.zipWith_cons_cons, List.getD_cons_succ]
        exact ih bt i (by simpa using h1) (by simpa using h2)

theorem cut_bucket_subset (fr : List ℚ) (l : List Nat) (i : Nat) :
    ∀ x ∈ (cutByFractions fr l).buckets.getD i [], x ∈ l := by
  intro x hx
  by_cases hi : i < (cutByFractions fr l).buckets.length
  · have hb : (cutByFractions fr l).buckets.getD i [] ∈ (cutByFractions fr l).buckets := by
      rw [List.getD_eq_getElem?_getD, List.getElem?_eq_getElem hi]
      exact List.getElem_mem hi
    have hfl : x ∈ (cutByFractions fr l).buckets.flatten :=
      List.mem_flatten.mpr ⟨_, hb, hx⟩
    have hm : x ∈ (cutByFractions fr l).buckets.flatten ++ (cutByFractions fr l).discard :=
      List.mem_append.mpr (Or.inl hfl)
    rw [cutByFractions_flatten fr l] at hm
    exact hm
  · rw [List.getD_eq_getElem?_getD, List.getElem?_eq_none (by omega)] at hx
    simp at hx

theorem stratified_bucket_decomp (d : Dataset) (t : Nat) (fr : List ℚ) (s : Nat) (i : Nat)
    (hi : i < fr.length) :
    (stratifiedAssign d t fr s).buckets.getD i []
      = (cutByFractions fr (shuffleIdx s (posIdxs d t))).buckets.getD i []
        ++ (cutByFractions fr (shuffleIdx (s + 1) (negIdxs d t))).buckets.getD i [] := by
  rw [stratifiedAssign, mergeAssign]
  exact zipWith_append_getD _ _ i (by rw [cut_numBuckets]; exact hi)
    (by rw [cut_numBuckets]; exact hi)

theorem shuffleIdx_length (seed : Nat) (l : List Nat) : (shuffleIdx seed l).length = l.length := by
  rw [shuffleIdx, sortBy_length]

theorem posBucket_filter (d : Dataset) (t : Nat) (fr : List ℚ) (s : Nat) (i : Nat) :
    ((cutByFractions fr (shuffleIdx s (posIdxs d t))).buckets.getD i []).filter (isPos d t)
      = (cutByFractions fr (shuffleIdx s (posIdxs d t))).buckets.getD i [] := by
  rw [List.filter_eq_self]
  intro x hx
  have hx2 := cut_bucket_subset fr _ i x hx
  have hx3 : x ∈ posIdxs d t := (sortBy_perm _ _).mem_iff.mp hx2
  exact (List.mem_filter.mp hx3).2

theorem negBucket_filter (d : Dataset) (t : Nat) (fr : List ℚ) (s : Nat) (i : Nat) :
    ((cutByFractions fr (shuffleIdx s (negIdxs d t))).buckets.getD i []).filter (isPos d t)
      = [] := by
  rw [List.filter_eq_nil_iff]
  intro x hx
  have hx2 := cut_bucket_subset fr _ i x hx
  have hx3 : x ∈ negIdxs d t := (sortBy_perm _ _).mem_iff.mp hx2
  have hx4 := (List.mem_filter.mp hx3).2
  simpa using hx4

theorem stratified_posCount (d : Dataset) (t : Nat) (fr : List ℚ) (s : Nat) (i : Nat)
    (hi : i < fr.length) (h1 : ∀ f ∈ fr, 0 ≤ f) (h2 : fr.sum ≤ 1) :
    posCountIn d t ((stratifiedAssign d t fr s).buckets.getD i [])
      = (bucketSizes fr (posIdxs d t).length).getD i 0 := by
  rw [stratified_bucket_decomp d t fr s i hi, posCountIn, List.filter_append,
    List.length_append, posBucket_filter, negBucket_filter]
  have hc := cut_bucket_length fr (shuffleIdx s (posIdxs d t)) h1 h2 i hi
  rw [shuffleIdx_length] at hc
  rw [hc]
  simp

theorem stratified_bucket_size (d : Dataset) (t : Nat) (fr : List ℚ) (s : Nat) (i : Nat)
    (hi : i < fr.length) (h1 : ∀ f ∈ fr, 0 ≤ f) (h2 : fr.sum ≤ 1) :
    ((stratifiedAssign d t fr s).buckets.getD i []).length
      = (bucketSizes fr (posIdxs d t).length).getD i 0
        + (bucketSizes fr (negIdxs d t).length).getD i 0 := by
  rw [stratified_bucket_decomp d t fr s i hi, List.length_append]
  have hp := cut_bucket_length fr (shuffleIdx s (posIdxs d t)) h1 h2 i hi
  have hn := cut_bucket_length fr (shuffleIdx (s + 1) (negIdxs d t)) h1 h2 i hi
  rw [shuffleIdx_length] at hp hn
  rw [hp, hn]

theorem pos_neg_length (d : Dataset) (t : Nat) :
    (posIdxs d t).length + (negIdxs d t).length = d.length := by
  have h := (posIdxs_append_negIdxs_perm d t).length_eq
  rw [List.length_append, List.length_range] at h
  exact h

theorem ratio_bound (P Ng p g n : Nat) (f : ℚ) (hn : 0 < n) (hpg : p + g = n)
    (hP : |(P : ℚ) - f * p| ≤ 1) (hN : |(Ng : ℚ) - f * g| ≤ 1) :
    |(P : ℚ) - (p : ℚ) / (n : ℚ) * ((P : ℚ) + (Ng : ℚ))| ≤ 1 := by
  have hnq : (0 : ℚ) < n := by exact_mod_cast hn
  have hne : (n : ℚ) ≠ 0 := ne_of_gt hnq
  have hpgq : (p : ℚ) + (g : ℚ) = (n : ℚ) := by exact_mod_cast hpg
  have hgq : (g : ℚ) = (n : ℚ) - p := by linarith
  rw [hgq] at hN
  have hid : (P : ℚ) - (p : ℚ) / (n : ℚ) * ((P : ℚ) + (Ng : ℚ))
      = (((n : ℚ) - p) * ((P : ℚ) - f * p)
          - (p : ℚ) * ((Ng : ℚ) - f * ((n : ℚ) - p))) / n := by
    field_simp
    ring
  rw [hid, abs_div, abs_of_pos hnq, div_le_one hnq]
  have h3 : (0 : ℚ) ≤ (n : ℚ) - p := by
    have hg0 : (0 : ℚ) ≤ (g : ℚ) := Nat.cast_nonneg g
    linarith
  have hp0 : (0 : ℚ) ≤ (p : ℚ) := Nat.cast_nonneg p
  calc |((n : ℚ) - p) * ((P : ℚ) - f * p) - (p : ℚ) * ((Ng : ℚ) - f * ((n : ℚ) - p))|
      ≤ |((n : ℚ) - p) * ((P : ℚ) - f * p)| + |(p : ℚ) * ((Ng : ℚ) - f * ((n : ℚ) - p))| :=
        abs_sub _ _
    _ = ((n : ℚ) - p) * |(P : ℚ) - f * p| + (p : ℚ) * |(Ng : ℚ) - f * ((n : ℚ) - p)| := by
        rw [abs_mul, abs_mul, abs_of_nonneg h3, abs_of_nonneg hp0]
    _ ≤ ((n : ℚ) - p) * 1 + (p : ℚ) * 1 := by gcongr
    _ = (n : ℚ) := by ring

theorem fr_getD_mem (fr : List ℚ) (i : Nat) (hi : i < fr.length) : fr.getD i 0 ∈ fr := by
  rw [List.getD_eq_getElem?_getD, List.getElem?_eq_getElem hi]
  exact List.getElem_mem hi

/-- C4: for every dataset and accepted fractions, the positive count in
each bucket of the Stratified Splitter deviates from the global positive
fraction of the dataset, scaled by the bucket size, by at most one item;
in particular on any 100-item dataset with 20 positives and fractions
[8/10, 1/10, 1/10] the validation and test buckets hold between one and
three positives, never zero. -/
theorem stratified_proportion_bound (d : Dataset) (t : Nat) (fr : List ℚ) (s : Nat)
    (h1 : ∀ f ∈ fr, 0 ≤ f) (h2 : fr.sum ≤ 1) (hd : 0 < d.length) :
    (∀ i, i < fr.length →
      |(posCountIn d t ((stratifiedAssign d t fr s).buckets.getD i []) : ℚ)
        - ((posIdxs d t).length : ℚ) / (d.length : ℚ)
          * (((stratifiedAssign d t fr s).buckets.getD i []).length : ℚ)| ≤ 1) ∧
    (d.length = 100 → (posIdxs d t).length = 20 → fr = [8 / 10, 1 / 10, 1 / 10] →
      ∀ i, i = 1 ∨ i = 2 →
        1 ≤ posCountIn d t ((stratifiedAssign d t fr s).buckets.getD i []) ∧
        posCountIn d t ((stratifiedAssign d t fr s).buckets.getD i []) ≤ 3) := by
  constructor
  · intro i hi
    have hf0 : 0 ≤ fr.getD i 0 := h1 _ (fr_getD_mem fr i hi)
    have hPq := bucketSizes_quota_bound fr (posIdxs d t).length i hi hf0
    have hNq := bucketSizes_quota_bound fr (negIdxs d t).length i hi hf0
    have hPc := stratified_posCount d t fr s i hi h1 h2
    have hSz := stratified_bucket_size d t fr s i hi h1 h2
    rw [hPc]
    have hSzq : (((stratifiedAssign d t fr s).buckets.getD i []).length : ℚ)
        = ((bucketSizes fr (posIdxs d t).length).getD i 0 : ℚ)
          + ((bucketSizes fr (negIdxs d t).length).getD i 0 : ℚ) := by
      rw [hSz]
      push_cast
      ring
    rw [hSzq]
    have hmul : ∀ m : Nat, fr.getD i 0 * (m : ℚ) = fr.getD i 0 * m := fun m => rfl
    exact ratio_bound
      ((bucketSizes fr (posIdxs d t).length).getD i 0)
      ((bucketSizes fr (negIdxs d t).length).getD i 0)
      (posIdxs d t).length (negIdxs d t).length d.length (fr.getD i 0)
      hd (pos_neg_length d t) hPq hNq
  · intro hn hp hfr i hi12
    have hi : i < fr.length := by
      rcases hi12 with rfl | rfl <;> rw [hfr] <;> simp
    have hf0 : 0 ≤ fr.getD i 0 := h1 _ (fr_getD_mem fr i hi)
    have hPc := stratified_posCount d t fr s i hi h1 h2
    have hPq := bucketSizes_quota_bound fr (posIdxs d t).length i hi hf0
    rw [hp] at hPq
    have hfv : fr.getD i 0 = 1 / 10 := by
      rcases hi12 with rfl | rfl <;> rw [hfr] <;> rfl
    rw [hfv] at hPq
    have hq2 : (1 : ℚ) / 10 * ((20 : ℕ) : ℚ) = 2 := by norm_num
    rw [hq2] at hPq
    rcases abs_le.mp hPq with ⟨hlo, hhi⟩
    constructor
    · rw [hPc, hp]
      have h20 : (1 : ℚ) ≤ ((bucketSizes fr 20).getD i 0 : ℚ) := by linarith
      exact_mod_cast h20
    · rw [hPc, hp]
      have h20 : ((bucketSizes fr 20).getD i 0 : ℚ) ≤ 3 := by linarith
      exact_mod_cast h20

unseal Rat.add Rat.sub Rat.mul Rat.inv Rat.ofScientific in
theorem stratified_proportion_bound_witness :
    1 ≤ posCountIn stratData100 0
        ((stratifiedAssign stratData100 0 [8 / 10, 1 / 10, 1 / 10] 7).buckets.getD 1 []) ∧
    posCountIn stratData100 0
        ((stratifiedAssign stratData100 0 [8 / 10, 1 / 10, 1 / 10] 7).buckets.getD 1 []) ≤ 3 := by
  have h := stratified_proportion_bound stratData100 0 [8 / 10, 1 / 10, 1 / 10] 7
    (by norm_num) (by norm_num) (by decide)
  exact h.2 (by decide) (by decide) rfl 1 (Or.inl rfl)
